import Mathlib

/-! The component group `common::SystemGroup` of src/common/System.h.

A shallow embedding of the component group of `System.h` and a verification of
its lifecycle dispatch.

* Pointers and list nodes are addresses (`Nat`) handed out by an allocator
  counter kept in `World`; the `World` also records every phase method that has
  been called, in call order.
* `std::list<Callback>` is a list of nodes; a list iterator is the address of a
  node, and a value-initialised iterator is `none`.
* `std::multimap<std::type_index, SystemRecord>` is a list of entries kept in
  key order; a map iterator is a position in that list.
* Erasing through an iterator that does not designate a node of the list has no
  defined behaviour in C++; the embedding returns `none` / `Outcome.undefined`.
* Component code (constructors and phase methods) is a parameter, `Behaviour`:
  it may return or raise an error, and it does not touch the group.
* A group held as a component of another group is driven by `CallNested`: the
  parent's loop runs the nested group's own member function on its node.
-/

namespace common

/-- The type `std::type_index`, with its total order. -/
abbrev TypeIndex := Nat

/-- The type `System*`: the address of a component. -/
abbrev SystemPtr := Nat

/-- The value of a raised exception. -/
abbrev Error := Nat

/-- The constructor arguments `args...` of `AddSystem`. -/
abbrev Args := Nat

/-- The three virtual phase methods of `System`. -/
inductive Phase
  | Start
  | Update
  | Tick
  deriving DecidableEq, Repr

/-- The type `SystemFunc*`: the code a vtable slot points to. `inherited p` is
`System::p`, the empty default; `overriding t p` is the implementation of `p`
that objects of the class with type index `t` resolve to. -/
inductive SystemFunc
  | inherited (p : Phase)
  | overriding (type : TypeIndex) (p : Phase)
  deriving DecidableEq, Repr

/-- The type `VTable<System>` (the `Destructor` slot is not used by the group). -/
structure VTable where
  Start : SystemFunc
  Update : SystemFunc
  Tick : SystemFunc
  deriving DecidableEq, Repr

/-- A type satisfying the concept `SystemClass`: its `typeid` and, for each
phase, whether it overrides the method of `System`. -/
structure SystemClass where
  type : TypeIndex
  Start : Bool
  Update : Bool
  Tick : Bool
  deriving DecidableEq, Repr

/-- Whether the class overrides phase `p`. -/
def SystemClass.overrides (Sys : SystemClass) : Phase → Bool
  | .Start => Sys.Start
  | .Update => Sys.Update
  | .Tick => Sys.Tick

/-- The resolved implementation of phase `p` for objects of class `Sys`. -/
def SystemClass.slot (Sys : SystemClass) (p : Phase) : SystemFunc :=
  if Sys.overrides p then .overriding Sys.type p else .inherited p

/-- Modelled from the spec: `GetVTable` of common/VTable.h, which is not among
the sources. It yields the dispatch table of an object: for each phase the
resolved implementation address, equal to the baseline's exactly when the
class does not override the phase. -/
def GetVTable (Sys : SystemClass) : VTable :=
  { Start := Sys.slot .Start, Update := Sys.slot .Update, Tick := Sys.slot .Tick }

/-- The class of `static System nullsystem`: `System` itself. -/
def nullsystem : SystemClass :=
  { type := 0, Start := false, Update := false, Tick := false }

/-- The type `struct Callback { System* system; SystemFunc* func; }`. -/
structure Callback where
  system : SystemPtr
  func : SystemFunc
  deriving DecidableEq, Repr

/-- A node of a `std::list<Callback>`, at address `addr`. -/
structure Node where
  addr : Nat
  value : Callback
  deriving DecidableEq, Repr

/-- The type `std::list<Callback>`. -/
abbrev CallbackList := List Node

/-- The type `std::list<Callback>::iterator`: the address of the node it designates;
`none` is a value-initialised iterator. -/
abbrev ListIterator := Option Nat

/-- The type `struct SystemRecord`: the owning pointer `system` and the three
list iterators `Start`, `Update`, `Tick`. -/
structure SystemRecord where
  system : SystemPtr
  Start : ListIterator
  Update : ListIterator
  Tick : ListIterator
  deriving DecidableEq, Repr

/-- The type `std::multimap<std::type_index, SystemRecord>`: entries in iteration order. -/
abbrev Multimap := List (TypeIndex × SystemRecord)

/-- The type `SystemGroup::Iterator`: a position in the store; `end()` is its length. -/
abbrev Iterator := Nat

/-- The data members of `SystemGroup`. -/
structure SystemGroup where
  started : Bool
  OnStart : CallbackList
  OnUpdate : CallbackList
  OnTick : CallbackList
  systems : Multimap
  deriving DecidableEq, Repr

/-- What component code does: `ctor t a` is the error raised by the constructor
of the class with type index `t` on arguments `a`, if any; `call tr cb` is the
error raised by the phase method `cb.func` on `cb.system` when the calls made
before it are `tr`, if any. -/
structure Behaviour where
  ctor : TypeIndex → Args → Option Error
  call : List Callback → Callback → Option Error

/-- The surroundings of the group: the next free address of the allocator and
the phase-method calls made so far, oldest first. -/
structure World where
  next : Nat
  trace : List Callback
  deriving DecidableEq, Repr

/-- How a member function ends: it returns, it lets an error escape (the group
and the world are then as the error left them), or its behaviour is undefined. -/
inductive Outcome (α : Type)
  | returned (value : α) (g : SystemGroup) (w : World)
  | threw (e : Error) (g : SystemGroup) (w : World)
  | undefined
  deriving DecidableEq, Repr

/-- The group and world an operation leaves behind, when it has defined behaviour. -/
def Outcome.state? {α : Type} : Outcome α → Option (SystemGroup × World)
  | .returned _ g w => some (g, w)
  | .threw _ g w => some (g, w)
  | .undefined => none

/-- The error an operation lets escape, if any. -/
def Outcome.error? {α : Type} : Outcome α → Option Error
  | .threw e _ _ => some e
  | _ => none

/-! ## `std::multimap` -/

/-- The function `multimap::lower_bound`: the first position whose key is not less than `k`. -/
def Multimap.lower_bound (m : Multimap) (k : TypeIndex) : Iterator :=
  (m.takeWhile (fun e => decide (e.1 < k))).length

/-- The function `multimap::upper_bound`: the first position whose key is greater than `k`. -/
def Multimap.upper_bound (m : Multimap) (k : TypeIndex) : Iterator :=
  (m.takeWhile (fun e => decide (e.1 ≤ k))).length

/-- The function `multimap::insert(value)`: the new entry goes to the upper bound of its key. -/
def Multimap.insert (m : Multimap) (k : TypeIndex) (r : SystemRecord) : Multimap :=
  m.take (Multimap.upper_bound m k) ++ (k, r) :: m.drop (Multimap.upper_bound m k)

/-- The function `multimap::erase(key)`: every entry with that key goes. -/
def Multimap.erase (m : Multimap) (k : TypeIndex) : Multimap :=
  m.filter (fun e => e.1 != k)

/-- Modelled from the spec: `Subrange` of common/Ranges.h, which is not among
the sources: a view over a pair of iterators. -/
structure Subrange where
  first : Iterator
  last : Iterator
  deriving DecidableEq, Repr

/-- The function `multimap::equal_range`. -/
def Multimap.equal_range (m : Multimap) (k : TypeIndex) : Subrange :=
  { first := Multimap.lower_bound m k, last := Multimap.upper_bound m k }

/-- The entries met when iterating a view of the store from `first` to `last`. -/
def Subrange.entries (r : Subrange) (m : Multimap) : List (TypeIndex × SystemRecord) :=
  (m.drop r.first).take (r.last - r.first)

/-! ## `std::list<Callback>` -/

/-- The function `list::erase(iterator)`: defined only when the iterator
designates a node of this list; that node goes and the others keep their order. -/
def CallbackList.erase (l : CallbackList) (it : ListIterator) : Option CallbackList :=
  match it with
  | none => none
  | some a =>
    if l.any (fun n => n.addr == a) then some (l.eraseP (fun n => n.addr == a)) else none

/-- Calling the phase method `cb.func` on `cb.system`: the call is recorded and
its error, if it raises one, is handed back. -/
def invoke (beh : Behaviour) (cb : Callback) (w : World) : Option Error × World :=
  (beh.call w.trace cb, { w with trace := w.trace ++ [cb] })

namespace SystemGroup

/-- The function `SystemGroup() {}`. -/
def ctor : SystemGroup :=
  { started := false, OnStart := [], OnUpdate := [], OnTick := [], systems := [] }

/-- The function `SystemGroup(auto*... sys)`: each pointer is stored under
`typeid(decltype(sys))`, the first component of the pair, left to right. -/
def ctor_sys (sys : List (TypeIndex × SystemPtr)) : SystemGroup :=
  { started := false, OnStart := [], OnUpdate := [], OnTick := [],
    systems := sys.foldl (fun m s => Multimap.insert m s.1 ⟨s.2, none, none, none⟩) [] }

/-- The function `Call(event)`: `for (auto& [sys, Func] : event) Func(sys);`. The first
error ends the loop. -/
def Call (beh : Behaviour) : CallbackList → World → Option Error × World
  | [], w => (none, w)
  | n :: event, w =>
    match invoke beh n.value w with
    | (some e, w1) => (some e, w1)
    | (none, w1) => Call beh event w1

/-- The function `RegisterCallback(event, system, func)`:
`event.insert(event.end(), Callback {system, func})`, in a newly allocated node. -/
def RegisterCallback (event : CallbackList) (system : SystemPtr) (func : SystemFunc)
    (w : World) : ListIterator × CallbackList × World :=
  (some w.next, event ++ [⟨w.next, ⟨system, func⟩⟩], { w with next := w.next + 1 })

/-- The function `UnregisterCallbacks(record)`: the three erasures, one after the other. -/
def UnregisterCallbacks (record : SystemRecord) (g : SystemGroup) : Option SystemGroup :=
  match CallbackList.erase g.OnStart record.Start with
  | none => none
  | some onStart =>
    match CallbackList.erase g.OnUpdate record.Update with
    | none => none
    | some onUpdate =>
      match CallbackList.erase g.OnTick record.Tick with
      | none => none
      | some onTick =>
        some { g with OnStart := onStart, OnUpdate := onUpdate, OnTick := onTick }

/-- The function `AddSystem<Sys>(args...)`. The `record` of the source is a
reference into the store, so the handles assigned to it are the ones the store
entry holds when the function ends, by return or by an error of the catch-up
`Start`. -/
def AddSystem (beh : Behaviour) (Sys : SystemClass) (args : Args) (g : SystemGroup)
    (w : World) : Outcome SystemPtr :=
  let base := GetVTable nullsystem
  match beh.ctor Sys.type args with
  | some e => .threw e g w
  | none =>
    let sys := w.next
    let w0 : World := { w with next := w.next + 1 }
    let vt := GetVTable Sys
    let s := if vt.Start != base.Start then RegisterCallback g.OnStart sys vt.Start w0
      else (none, g.OnStart, w0)
    let c := if vt.Start != base.Start && g.started then invoke beh ⟨sys, vt.Start⟩ s.2.2
      else (none, s.2.2)
    match c.1 with
    | some e =>
      .threw e
        { g with OnStart := s.2.1,
                 systems := Multimap.insert g.systems Sys.type ⟨sys, s.1, none, none⟩ } c.2
    | none =>
      let u := if vt.Update != base.Update then RegisterCallback g.OnUpdate sys vt.Update c.2
        else (none, g.OnUpdate, c.2)
      let t := if vt.Tick != base.Tick then RegisterCallback g.OnTick sys vt.Tick u.2.2
        else (none, g.OnTick, u.2.2)
      .returned sys
        { started := g.started, OnStart := s.2.1, OnUpdate := u.2.1, OnTick := t.2.1,
          systems := Multimap.insert g.systems Sys.type ⟨sys, s.1, u.1, t.1⟩ } t.2.2

/-- The function `GetSystems(type)`: `systems.equal_range(type)`. -/
def GetSystems (g : SystemGroup) (type : TypeIndex) : Subrange :=
  Multimap.equal_range g.systems type

/-- The loop of `RemoveSystems`: `UnregisterCallbacks` on each record of the range. -/
def unregisterEach : List (TypeIndex × SystemRecord) → SystemGroup → Option SystemGroup
  | [], g => some g
  | e :: rest, g =>
    match UnregisterCallbacks e.2 g with
    | none => none
    | some g1 => unregisterEach rest g1

/-- The function `RemoveSystems(type)`. -/
def RemoveSystems (type : TypeIndex) (g : SystemGroup) (w : World) : Outcome Unit :=
  match unregisterEach ((GetSystems g type).entries g.systems) g with
  | none => .undefined
  | some g1 => .returned () { g1 with systems := Multimap.erase g1.systems type } w

/-- The function `RemoveSystem(iterator)`: the iterator has to designate an
entry of the store. -/
def RemoveSystem (iterator : Iterator) (g : SystemGroup) (w : World) : Outcome Unit :=
  match g.systems[iterator]? with
  | none => .undefined
  | some e =>
    match UnregisterCallbacks e.2 g with
    | none => .undefined
    | some g1 => .returned () { g1 with systems := g1.systems.eraseIdx iterator } w

/-- The function `begin()`. -/
def begin (_g : SystemGroup) : Iterator := 0

/-- The function `end()`. -/
def end_ (g : SystemGroup) : Iterator := g.systems.length

/-- A phase body after the flag update: `Call(event)`. -/
def phase (beh : Behaviour) (event : CallbackList) (g : SystemGroup) (w : World) :
    Outcome Unit :=
  match Call beh event w with
  | (some e, w1) => .threw e g w1
  | (none, w1) => .returned () g w1

/-- The function `Start()`: `started = true; Call(OnStart);`. -/
def Start (beh : Behaviour) (g : SystemGroup) (w : World) : Outcome Unit :=
  phase beh g.OnStart { g with started := true } w

/-- The function `Update()`: `Call(OnUpdate);`. -/
def Update (beh : Behaviour) (g : SystemGroup) (w : World) : Outcome Unit :=
  phase beh g.OnUpdate g w

/-- The function `Tick()`: `Call(OnTick);`. -/
def Tick (beh : Behaviour) (g : SystemGroup) (w : World) : Outcome Unit :=
  phase beh g.OnTick g w

end SystemGroup

/-! ## Sequences of operations -/

/-- A call of one public member function of a group. -/
inductive Op
  | AddSystem (Sys : SystemClass) (args : Args)
  | GetSystems (type : TypeIndex)
  | RemoveSystems (type : TypeIndex)
  | RemoveSystem (iterator : Iterator)
  | Start
  | Update
  | Tick
  deriving DecidableEq, Repr

/-- The group and world after one operation (whether it returned or let an
error escape); `none` when its behaviour is undefined. -/
def Op.apply (beh : Behaviour) (op : Op) (g : SystemGroup) (w : World) :
    Option (SystemGroup × World) :=
  match op with
  | .AddSystem Sys args => (SystemGroup.AddSystem beh Sys args g w).state?
  | .GetSystems _ => some (g, w)
  | .RemoveSystems type => (SystemGroup.RemoveSystems type g w).state?
  | .RemoveSystem it => (SystemGroup.RemoveSystem it g w).state?
  | .Start => (SystemGroup.Start beh g w).state?
  | .Update => (SystemGroup.Update beh g w).state?
  | .Tick => (SystemGroup.Tick beh g w).state?

/-- The group and world after a sequence of operations, the caller catching
every error that escapes; `none` as soon as one operation is undefined. -/
def run (beh : Behaviour) : List Op → SystemGroup → World → Option (SystemGroup × World)
  | [], g, w => some (g, w)
  | op :: ops, g, w =>
    match op.apply beh g w with
    | none => none
    | some (g1, w1) => run beh ops g1 w1

/-- Component code that never raises an error. -/
def quiet : Behaviour :=
  { ctor := fun _ _ => none, call := fun _ _ => none }

/-- The list that drives phase `p`: `OnStart`, `OnUpdate` or `OnTick`. -/
def SystemGroup.event (g : SystemGroup) : Phase → CallbackList
  | .Start => g.OnStart
  | .Update => g.OnUpdate
  | .Tick => g.OnTick

/-- The member function of the group for phase `p`. -/
def SystemGroup.callPhase (beh : Behaviour) : Phase → SystemGroup → World → Outcome Unit
  | .Start => SystemGroup.Start beh
  | .Update => SystemGroup.Update beh
  | .Tick => SystemGroup.Tick beh

/-- A sequence of `AddSystem` calls, the caller catching the errors: the
components added (the reference returned, with its class) in call order, and
the group and world at the end. -/
def addAll (beh : Behaviour) :
    List (SystemClass × Args) → SystemGroup → World →
      List (SystemPtr × SystemClass) × SystemGroup × World
  | [], g, w => ([], g, w)
  | c :: rest, g, w =>
    match SystemGroup.AddSystem beh c.1 c.2 g w with
    | .returned sys g1 w1 =>
      ((sys, c.1) :: (addAll beh rest g1 w1).1, (addAll beh rest g1 w1).2)
    | .threw _ g1 w1 => addAll beh rest g1 w1
    | .undefined => ([], g, w)

/-- The calls of phase `p` on those of the given components that override `p`,
in the order of the list. -/
def invoked (p : Phase) (added : List (SystemPtr × SystemClass)) : List Callback :=
  (added.filter (fun a => a.2.overrides p)).map (fun a => ⟨a.1, a.2.slot p⟩)

/-- The states a group can be in: it is constructed by one of its two
constructors (the pointers handed to the second one are distinct live objects,
each owned by nobody else) and then driven through its public member functions. -/
inductive Reachable (beh : Behaviour) : SystemGroup → World → Prop
  | ctor (w : World) : Reachable beh SystemGroup.ctor w
  | ctor_sys (sys : List (TypeIndex × SystemPtr)) (w : World)
      (hd : (sys.map Prod.snd).Nodup) (hl : ∀ s ∈ sys, s.2 < w.next) :
      Reachable beh (SystemGroup.ctor_sys sys) w
  | step (op : Op) (g : SystemGroup) (w : World) (g1 : SystemGroup) (w1 : World)
      (h : Reachable beh g w) (hop : op.apply beh g w = some (g1, w1)) :
      Reachable beh g1 w1

/-- What the operations keep true of a group and its world: the store is in
key order, no component is held twice, and every component held or registered
was allocated before the next free address. -/
structure Inv (g : SystemGroup) (w : World) : Prop where
  sorted : g.systems.Pairwise (fun a b => a.1 ≤ b.1)
  nodup : (g.systems.map (fun e => e.2.system)).Nodup
  held : ∀ e ∈ g.systems, e.2.system < w.next
  listed : ∀ p, ∀ n ∈ g.event p, n.value.system < w.next

/-- A class `A` that overrides `Update` only. -/
def clsA : SystemClass := { type := 7, Start := false, Update := true, Tick := false }

/-- A class `B` that overrides `Start` and `Update`. -/
def clsB : SystemClass := { type := 5, Start := true, Update := true, Tick := false }

/-- A class `C` that overrides `Start` only. -/
def clsC : SystemClass := { type := 3, Start := true, Update := false, Tick := false }

/-- A class `D` that overrides all three phases. -/
def clsD : SystemClass := { type := 9, Start := true, Update := true, Tick := true }

/-- The world in which the examples start: nothing called yet. -/
def world0 : World := { next := 100, trace := [] }

/-- The group after `AddSystem<A>`, `AddSystem<B>`, `AddSystem<D>` on a
default-constructed group. -/
def groupABD : SystemGroup :=
  (addAll quiet [(clsA, 0), (clsB, 0), (clsD, 0)] SystemGroup.ctor world0).2.1

/-- The world after these three additions. -/
def worldABD : World :=
  (addAll quiet [(clsA, 0), (clsB, 0), (clsD, 0)] SystemGroup.ctor world0).2.2

/-- Component code in which `Update` of class `B` raises error 42. -/
def failingB : Behaviour :=
  { ctor := fun _ _ => none,
    call := fun _ cb => if cb.func = SystemFunc.overriding 5 Phase.Update then some 42 else none }

/-- The handle a record holds for the list of phase `p`. -/
def SystemRecord.handle (r : SystemRecord) : Phase → ListIterator
  | .Start => r.Start
  | .Update => r.Update
  | .Tick => r.Tick

/-- Whether the record holds a valid handle into the list of phase `p`: an
iterator that is not value-initialised and designates a node of that list. -/
def SystemRecord.valid (r : SystemRecord) (g : SystemGroup) (p : Phase) : Bool :=
  match r.handle p with
  | none => false
  | some a => (g.event p).any (fun n => n.addr == a)

/-- How the store and the three lists refer to each other: in each list the
nodes have distinct addresses, allocated before the next free address, and
belong to distinct components; every node is the one its component's record
designates for that list; and every handle that is not value-initialised
designates a node of its list, the one of the record's own component. -/
structure Linked (g : SystemGroup) (w : World) : Prop where
  addr_nodup : ∀ p, ((g.event p).map Node.addr).Nodup
  addr_lt : ∀ p, ∀ n ∈ g.event p, n.addr < w.next
  sys_nodup : ∀ p, ((g.event p).map (fun n => n.value.system)).Nodup
  owner : ∀ p, ∀ n ∈ g.event p,
    ∃ e ∈ g.systems, e.2.system = n.value.system ∧ e.2.handle p = some n.addr
  target : ∀ p, ∀ e ∈ g.systems, ∀ a, e.2.handle p = some a →
    ∃ n ∈ g.event p, n.addr = a ∧ n.value.system = e.2.system

/-- Component code in which the constructor of class `B` raises error 13. -/
def failingCtor : Behaviour :=
  { ctor := fun t _ => if t = 5 then some 13 else none, call := fun _ _ => none }

/-- Component code in which `Start` of class `B` raises error 42. -/
def failingStart : Behaviour :=
  { ctor := fun _ _ => none,
    call := fun _ cb => if cb.func = SystemFunc.overriding 5 Phase.Start then some 42 else none }

/-- The states reached from `SystemGroup()` by `AddSystem` calls that return
and by the other public member functions, together with the class of each
component that `AddSystem` has constructed (an `AddSystem` call whose
constructor raises changes nothing and so adds no state; one whose catch-up
`Start` raises is left out). -/
inductive Tracked (beh : Behaviour) :
    List (SystemPtr × SystemClass) → SystemGroup → World → Prop
  | ctor (w : World) : Tracked beh [] SystemGroup.ctor w
  | add (Sys : SystemClass) (args : Args) (dyn : List (SystemPtr × SystemClass))
      (g : SystemGroup) (w : World) (v : SystemPtr) (g1 : SystemGroup) (w1 : World)
      (h : Tracked beh dyn g w)
      (hret : SystemGroup.AddSystem beh Sys args g w = .returned v g1 w1) :
      Tracked beh ((v, Sys) :: dyn) g1 w1
  | step (op : Op) (dyn : List (SystemPtr × SystemClass)) (g : SystemGroup) (w : World)
      (g1 : SystemGroup) (w1 : World) (h : Tracked beh dyn g w)
      (hop : ∀ Sys args, op ≠ Op.AddSystem Sys args)
      (happ : op.apply beh g w = some (g1, w1)) :
      Tracked beh dyn g1 w1

/-- The phase a member function implements. -/
def SystemFunc.phase : SystemFunc → Phase
  | .inherited p => p
  | .overriding _ p => p

/-- The state of a group constructed by `SystemGroup()` inside `AddSystem` of a
parent: as constructed when the parent is not started (`b = false`), and
after the catch-up `Start()` when it is (`b = true`). -/
def SystemGroup.added (b : Bool) : SystemGroup :=
  { started := b, OnStart := [], OnUpdate := [], OnTick := [], systems := [] }

end common

namespace common
open SystemGroup

/-! ## The phase loop -/

theorem Call_next (beh : Behaviour) (l : CallbackList) (w : World) :
    (Call beh l w).2.next = w.next := by
  induction l generalizing w with
  | nil => rfl
  | cons n l ih =>
    simp only [Call, invoke]
    split
    · next e w1 h => simp at h; rw [← h.2]
    · next w1 h => simp at h; rw [ih, ← h.2]

theorem Call_quiet (beh : Behaviour) (hq : ∀ tr cb, beh.call tr cb = none)
    (l : CallbackList) (w : World) :
    Call beh l w = (none, { w with trace := w.trace ++ l.map Node.value }) := by
  induction l generalizing w with
  | nil => simp [Call]
  | cons n l ih => simp [Call, invoke, hq, ih]

/-! ## `AddSystem` -/

theorem slot_ne_base (Sys : SystemClass) (p : Phase) :
    (Sys.slot p != nullsystem.slot p) = Sys.overrides p := by
  rcases Sys with ⟨ty, s, u, t⟩
  cases p <;> cases s <;> cases u <;> cases t <;>
    simp [SystemClass.slot, SystemClass.overrides, nullsystem]

theorem slot_phase_inj (Sys : SystemClass) (p q : Phase) (h : Sys.slot p = Sys.slot q) :
    p = q := by
  rcases Sys with ⟨ty, s, u, t⟩
  cases p <;> cases q <;> cases s <;> cases u <;> cases t <;>
    simp [SystemClass.slot, SystemClass.overrides] at h ⊢

theorem AddSystem_ctor_threw (beh : Behaviour) (Sys : SystemClass) (args : Args)
    (g : SystemGroup) (w : World) (e : Error) (hc : beh.ctor Sys.type args = some e) :
    AddSystem beh Sys args g w = .threw e g w := by
  simp [AddSystem, hc]

theorem AddSystem_not_started (beh : Behaviour) (Sys : SystemClass) (args : Args)
    (g : SystemGroup) (w : World) (hc : beh.ctor Sys.type args = none)
    (hs : g.started = false) :
    ∃ g1 w1, AddSystem beh Sys args g w = .returned w.next g1 w1 ∧
      g1.started = false ∧ w1.trace = w.trace ∧ w.next < w1.next ∧
      ∀ p, (g1.event p).map Node.value =
        (g.event p).map Node.value ++ invoked p [(w.next, Sys)] := by
  simp only [AddSystem, hc, GetVTable, slot_ne_base, hs, Bool.and_false]
  refine ⟨_, _, rfl, rfl, ?_, ?_, ?_⟩
  · rcases Sys with ⟨ty, s, u, t⟩
    cases s <;> cases u <;> cases t <;> simp [SystemClass.overrides, RegisterCallback]
  · rcases Sys with ⟨ty, s, u, t⟩
    cases s <;> cases u <;> cases t <;> simp [SystemClass.overrides, RegisterCallback] <;> omega
  · intro p
    rcases Sys with ⟨ty, s, u, t⟩
    cases p <;> cases s <;> cases u <;> cases t <;>
      simp [SystemClass.overrides, RegisterCallback, SystemGroup.event, invoked]

theorem AddSystem_spec (beh : Behaviour) (Sys : SystemClass) (args : Args)
    (g : SystemGroup) (w : World) (hc : beh.ctor Sys.type args = none) :
    ∃ g1 w1, (AddSystem beh Sys args g w).state? = some (g1, w1) ∧
      g1.started = g.started ∧ w.next < w1.next ∧
      w1.trace = w.trace ++
        (if g.started && Sys.overrides .Start then [⟨w.next, Sys.slot .Start⟩] else []) ∧
      (∃ r : SystemRecord, r.system = w.next ∧
        g1.systems = Multimap.insert g.systems Sys.type r) ∧
      ∀ p, ∃ extra, g1.event p = g.event p ++ extra ∧
        ∀ n ∈ extra, n.value = ⟨w.next, Sys.slot p⟩ := by
  simp only [AddSystem, hc, GetVTable, slot_ne_base]
  rcases Sys with ⟨ty, s, u, t⟩
  cases hst : g.started <;> cases s <;> cases u <;> cases t <;>
    simp only [SystemClass.overrides, RegisterCallback, invoke, Bool.and_false, Bool.and_true,
      Bool.false_and, Bool.true_and, if_true, if_false, Bool.false_eq_true]
  all_goals try split
  all_goals
    refine ⟨_, _, rfl, ?_, ?_, ?_, ⟨_, rfl, rfl⟩, ?_⟩
    · simp [hst]
    · simp only []; omega
    · simp
    · intro p
      cases p <;> simp [SystemGroup.event]

theorem invoked_cons (p : Phase) (a : SystemPtr × SystemClass)
    (l : List (SystemPtr × SystemClass)) :
    invoked p (a :: l) = invoked p [a] ++ invoked p l := by
  cases h : a.2.overrides p <;> simp [invoked, List.filter_cons, h]

theorem addAll_spec (beh : Behaviour) (calls : List (SystemClass × Args)) (g : SystemGroup)
    (w : World) (hs : g.started = false) :
    (addAll beh calls g w).2.1.started = false ∧
    (addAll beh calls g w).2.2.trace = w.trace ∧
    w.next ≤ (addAll beh calls g w).2.2.next ∧
    (∀ a ∈ (addAll beh calls g w).1, w.next ≤ a.1 ∧ a.1 < (addAll beh calls g w).2.2.next) ∧
    ((addAll beh calls g w).1.map Prod.fst).Nodup ∧
    (∀ p, ((addAll beh calls g w).2.1.event p).map Node.value =
      (g.event p).map Node.value ++ invoked p (addAll beh calls g w).1) ∧
    ((∀ c ∈ calls, beh.ctor c.1.type c.2 = none) →
      (addAll beh calls g w).1.map Prod.snd = calls.map Prod.fst) := by
  induction calls generalizing g w with
  | nil => simp [addAll, hs, invoked]
  | cons c rest ih =>
    cases hc : beh.ctor c.1.type c.2 with
    | some e =>
      have hadd : addAll beh (c :: rest) g w = addAll beh rest g w := by
        simp [addAll, AddSystem_ctor_threw beh c.1 c.2 g w e hc]
      rw [hadd]
      obtain ⟨h1, h2, h3, h4, h5, h6, _⟩ := ih g w hs
      refine ⟨h1, h2, h3, h4, h5, h6, ?_⟩
      intro hall
      have := hall c (List.mem_cons_self _ _)
      rw [hc] at this
      cases this
    | none =>
      obtain ⟨g1, w1, hret, hs1, ht1, hn1, he1⟩ := AddSystem_not_started beh c.1 c.2 g w hc hs
      have hadd : addAll beh (c :: rest) g w =
          ((w.next, c.1) :: (addAll beh rest g1 w1).1, (addAll beh rest g1 w1).2) := by
        simp [addAll, hret]
      rw [hadd]
      dsimp only
      obtain ⟨h1, h2, h3, h4, h5, h6, h7⟩ := ih g1 w1 hs1
      refine ⟨h1, h2.trans ht1, by omega, ?_, ?_, ?_, ?_⟩
      · intro a ha
        rcases List.mem_cons.1 ha with rfl | ha
        · exact ⟨Nat.le_refl _, Nat.lt_of_lt_of_le hn1 h3⟩
        · exact ⟨Nat.le_trans (Nat.le_of_lt hn1) (h4 a ha).1, (h4 a ha).2⟩
      · simp only [List.map_cons, List.nodup_cons]
        refine ⟨?_, h5⟩
        intro hmem
        obtain ⟨a, ha, hax⟩ := List.mem_map.1 hmem
        have h := (h4 a ha).1
        rw [hax] at h
        exact Nat.lt_irrefl _ (Nat.lt_of_lt_of_le hn1 h)
      · intro p
        rw [h6 p, he1 p, invoked_cons p (w.next, c.1) (addAll beh rest g1 w1).1,
          List.append_assoc]
      · intro hall
        simp only [List.map_cons]
        rw [h7 (fun c hc => hall c (List.mem_cons_of_mem _ hc))]

theorem callPhase_quiet (beh : Behaviour) (hq : ∀ tr cb, beh.call tr cb = none)
    (p : Phase) (g : SystemGroup) (w : World) :
    ∃ g1, callPhase beh p g w =
      .returned () g1 { w with trace := w.trace ++ (g.event p).map Node.value } := by
  cases p <;>
    simp [callPhase, SystemGroup.Start, SystemGroup.Update, SystemGroup.Tick, phase,
      Call_quiet beh hq, SystemGroup.event]

theorem invoked_nodup (p : Phase) (added : List (SystemPtr × SystemClass))
    (hd : (added.map Prod.fst).Nodup) : (invoked p added).Nodup := by
  have h1 : ((added.filter (fun a => a.2.overrides p)).map Prod.fst).Nodup :=
    List.Nodup.sublist (List.Sublist.map _ (List.filter_sublist _)) hd
  have h2 : ((invoked p added).map Callback.system).Nodup := by
    simpa [invoked, List.map_map, Function.comp_def] using h1
  exact List.Nodup.of_map _ h2

/-- C1: components added by `AddSystem` to a default-constructed group before
its first `Start()`: the references returned are pairwise distinct, every call
whose constructor does not raise adds its component, and one call of the
group's phase `p` (component code raising no error) returns after calling `p`
on exactly the added components that override `p`, in the order in which they
were added, each once; a component that does not override `p` is not called. -/
theorem C1_phase_calls_overriding_components_in_order (beh : Behaviour)
    (hq : ∀ tr cb, beh.call tr cb = none) (calls : List (SystemClass × Args)) (w : World)
    (p : Phase) :
    ((addAll beh calls ctor w).1.map Prod.fst).Nodup ∧
    ((∀ c ∈ calls, beh.ctor c.1.type c.2 = none) →
      (addAll beh calls ctor w).1.map Prod.snd = calls.map Prod.fst) ∧
    (∃ g1 w1, callPhase beh p (addAll beh calls ctor w).2.1 (addAll beh calls ctor w).2.2 =
        .returned () g1 w1 ∧
      w1.trace = w.trace ++ invoked p (addAll beh calls ctor w).1) ∧
    (∀ a ∈ (addAll beh calls ctor w).1, a.2.overrides p = true →
      (invoked p (addAll beh calls ctor w).1).count ⟨a.1, a.2.slot p⟩ = 1) ∧
    (∀ a ∈ (addAll beh calls ctor w).1, a.2.overrides p = false →
      ∀ cb ∈ invoked p (addAll beh calls ctor w).1, cb.system ≠ a.1) := by
  obtain ⟨_, h2, _, _, h5, h6, h7⟩ := addAll_spec beh calls ctor w rfl
  refine ⟨h5, h7, ?_, ?_, ?_⟩
  · obtain ⟨g1, hg1⟩ := callPhase_quiet beh hq p (addAll beh calls ctor w).2.1
      (addAll beh calls ctor w).2.2
    refine ⟨g1, _, hg1, ?_⟩
    have h := h6 p
    have he : (ctor.event p).map Node.value = [] := by cases p <;> rfl
    rw [he, List.nil_append] at h
    simp only [h2, h]
  · intro a ha ho
    apply List.count_eq_one_of_mem (invoked_nodup p _ h5)
    simp only [invoked, List.mem_map, List.mem_filter]
    exact ⟨a, ⟨ha, ho⟩, rfl⟩
  · intro a ha ho cb hcb heq
    simp only [invoked, List.mem_map, List.mem_filter] at hcb
    obtain ⟨b, ⟨hb, hbo⟩, rfl⟩ := hcb
    have hab : b = a := List.inj_on_of_nodup_map h5 hb ha heq
    rw [hab, ho] at hbo
    cases hbo

/-- C1, on an instance: `A` (overrides `Update` only) and `B` (overrides
`Start` and `Update`) are added; `Update()` then calls `A.Update`, `B.Update`. -/
theorem C1_phase_calls_overriding_components_in_order_witness :
    (∀ tr cb, quiet.call tr cb = none) ∧
    (∃ g1 w1, callPhase quiet .Update (addAll quiet [(clsA, 0), (clsB, 0)] ctor world0).2.1
        (addAll quiet [(clsA, 0), (clsB, 0)] ctor world0).2.2 = .returned () g1 w1 ∧
      w1.trace = [⟨100, .overriding 7 .Update⟩, ⟨102, .overriding 5 .Update⟩]) := by
  refine ⟨fun _ _ => rfl, ?_⟩
  obtain ⟨g1, w1, h, ht⟩ := (C1_phase_calls_overriding_components_in_order quiet
    (fun _ _ => rfl) [(clsA, 0), (clsB, 0)] world0 .Update).2.2.1
  exact ⟨g1, w1, h, ht.trans (by decide)⟩

/-- C2: when its constructor does not raise, the new component (at the address
`AddSystem` stores and returns) has its `Start` called once by `AddSystem` if
the group is started and the class overrides `Start`; otherwise `AddSystem`
calls no phase method; it never calls a phase method of another component.
This holds whether `AddSystem` returns or the catch-up call raises. -/
theorem C2_AddSystem_catch_up_start (beh : Behaviour) (Sys : SystemClass) (args : Args)
    (g : SystemGroup) (w : World) (hc : beh.ctor Sys.type args = none) :
    ∃ g1 w1, (AddSystem beh Sys args g w).state? = some (g1, w1) ∧
      (∃ r : SystemRecord, r.system = w.next ∧
        g1.systems = Multimap.insert g.systems Sys.type r) ∧
      (∀ v g2 w2, AddSystem beh Sys args g w = .returned v g2 w2 → v = w.next) ∧
      w1.trace = w.trace ++
        (if g.started = true ∧ Sys.overrides .Start = true then [⟨w.next, Sys.slot .Start⟩]
         else []) := by
  obtain ⟨g1, w1, h1, _, _, h4, h5, _⟩ := AddSystem_spec beh Sys args g w hc
  refine ⟨g1, w1, h1, h5, ?_, ?_⟩
  · intro v g2 w2 hret
    simp only [AddSystem, hc] at hret
    split at hret
    · cases hret
    · cases hret; rfl
  · rw [h4]
    simp only [Bool.and_eq_true]

/-- C2, on an instance: `B` (overrides `Start`) is added to a started group. -/
theorem C2_AddSystem_catch_up_start_witness :
    quiet.ctor clsB.type 0 = none ∧
    ∃ g1 w1, (AddSystem quiet clsB 0 { ctor with started := true } world0).state? =
        some (g1, w1) ∧
      w1.trace = [⟨100, .overriding 5 .Start⟩] := by
  refine ⟨rfl, ?_⟩
  obtain ⟨g1, w1, h, _, _, ht⟩ :=
    C2_AddSystem_catch_up_start quiet clsB 0 { ctor with started := true } world0 rfl
  exact ⟨g1, w1, h, ht.trans (by decide)⟩

/-! ## The store -/

theorem Multimap.insert_perm (m : Multimap) (k : TypeIndex) (r : SystemRecord) :
    List.Perm (Multimap.insert m k r) ((k, r) :: m) := by
  unfold Multimap.insert
  refine List.perm_middle.trans ?_
  rw [List.take_append_drop]

theorem Multimap.insert_cons (e : TypeIndex × SystemRecord) (m : Multimap) (k : TypeIndex)
    (r : SystemRecord) :
    Multimap.insert (e :: m) k r =
      if e.1 ≤ k then e :: Multimap.insert m k r else (k, r) :: e :: m := by
  by_cases h : e.1 ≤ k <;> simp [Multimap.insert, Multimap.upper_bound, List.takeWhile_cons, h]

theorem Multimap.insert_sorted (m : Multimap) (k : TypeIndex) (r : SystemRecord)
    (hs : m.Pairwise (fun a b => a.1 ≤ b.1)) :
    (Multimap.insert m k r).Pairwise (fun a b => a.1 ≤ b.1) := by
  induction m with
  | nil => simp [Multimap.insert, Multimap.upper_bound]
  | cons e m ih =>
    rw [Multimap.insert_cons]
    rw [List.pairwise_cons] at hs
    by_cases h : e.1 ≤ k
    · rw [if_pos h, List.pairwise_cons]
      refine ⟨?_, ih hs.2⟩
      intro b hb
      rcases List.mem_cons.1 ((Multimap.insert_perm m k r).mem_iff.1 hb) with rfl | hb
      · exact h
      · exact hs.1 b hb
    · rw [if_neg h, List.pairwise_cons, List.pairwise_cons]
      have hk : k ≤ e.1 := Nat.le_of_lt (Nat.lt_of_not_le h)
      refine ⟨?_, hs.1, hs.2⟩
      intro b hb
      rcases List.mem_cons.1 hb with rfl | hb
      · exact hk
      · exact Nat.le_trans hk (hs.1 b hb)

theorem ctor_sys_fold (sys : List (TypeIndex × SystemPtr)) (acc : Multimap)
    (hs : acc.Pairwise (fun a b => a.1 ≤ b.1)) :
    (sys.foldl (fun m s => Multimap.insert m s.1 ⟨s.2, none, none, none⟩) acc).Pairwise
        (fun a b => a.1 ≤ b.1) ∧
    List.Perm
      ((sys.foldl (fun m s => Multimap.insert m s.1 ⟨s.2, none, none, none⟩) acc).map
        (fun e => e.2.system))
      (acc.map (fun e => e.2.system) ++ sys.map Prod.snd) := by
  induction sys generalizing acc with
  | nil => simp [hs]
  | cons s rest ih =>
    simp only [List.foldl_cons, List.map_cons]
    obtain ⟨h1, h2⟩ := ih (Multimap.insert acc s.1 ⟨s.2, none, none, none⟩)
      (Multimap.insert_sorted acc _ _ hs)
    refine ⟨h1, h2.trans ?_⟩
    have hp := (Multimap.insert_perm acc s.1 ⟨s.2, none, none, none⟩).map (fun e => e.2.system)
    refine (List.Perm.append_right _ hp).trans ?_
    simp only [List.map_cons, List.cons_append]
    exact List.perm_middle.symm

/-! ## Unregistering -/

theorem CallbackList.erase_sublist (l l1 : CallbackList) (it : ListIterator)
    (h : CallbackList.erase l it = some l1) : l1.Sublist l := by
  cases it with
  | none => simp [CallbackList.erase] at h
  | some a =>
    simp only [CallbackList.erase] at h
    split at h
    · cases h; exact List.eraseP_sublist _
    · cases h

theorem UnregisterCallbacks_spec (record : SystemRecord) (g g1 : SystemGroup)
    (h : UnregisterCallbacks record g = some g1) :
    g1.systems = g.systems ∧ g1.started = g.started ∧
      ∀ p, (g1.event p).Sublist (g.event p) := by
  simp only [UnregisterCallbacks] at h
  cases h1 : CallbackList.erase g.OnStart record.Start with
  | none => simp [h1] at h
  | some l1 =>
    cases h2 : CallbackList.erase g.OnUpdate record.Update with
    | none => simp [h1, h2] at h
    | some l2 =>
      cases h3 : CallbackList.erase g.OnTick record.Tick with
      | none => simp [h1, h2, h3] at h
      | some l3 =>
        simp only [h1, h2, h3, Option.some.injEq] at h
        subst h
        refine ⟨rfl, rfl, ?_⟩
        intro p
        cases p
        · exact CallbackList.erase_sublist _ _ _ h1
        · exact CallbackList.erase_sublist _ _ _ h2
        · exact CallbackList.erase_sublist _ _ _ h3

theorem unregisterEach_spec (es : List (TypeIndex × SystemRecord)) (g g1 : SystemGroup)
    (h : unregisterEach es g = some g1) :
    g1.systems = g.systems ∧ g1.started = g.started ∧
      ∀ p, (g1.event p).Sublist (g.event p) := by
  induction es generalizing g with
  | nil =>
    simp only [unregisterEach, Option.some.injEq] at h
    subst h
    exact ⟨rfl, rfl, fun _ => List.Sublist.refl _⟩
  | cons e rest ih =>
    simp only [unregisterEach] at h
    cases h1 : UnregisterCallbacks e.2 g with
    | none => simp [h1] at h
    | some g2 =>
      simp only [h1] at h
      obtain ⟨a1, a2, a3⟩ := UnregisterCallbacks_spec e.2 g g2 h1
      obtain ⟨b1, b2, b3⟩ := ih g2 h
      exact ⟨b1.trans a1, b2.trans a2, fun p => (b3 p).trans (a3 p)⟩

/-! ## What each operation leaves behind -/

theorem RemoveSystems_spec (type : TypeIndex) (g g1 : SystemGroup) (w w1 : World)
    (h : (RemoveSystems type g w).state? = some (g1, w1)) :
    w1 = w ∧ g1.started = g.started ∧ g1.systems = Multimap.erase g.systems type ∧
      ∀ p, (g1.event p).Sublist (g.event p) := by
  simp only [RemoveSystems] at h
  cases h1 : unregisterEach ((GetSystems g type).entries g.systems) g with
  | none => simp [h1, Outcome.state?] at h
  | some g2 =>
    simp only [h1, Outcome.state?, Option.some.injEq, Prod.mk.injEq] at h
    obtain ⟨a1, a2, a3⟩ := unregisterEach_spec _ g g2 h1
    obtain ⟨hg, hw⟩ := h
    subst hg hw
    exact ⟨rfl, a2, by simp only [a1], a3⟩

theorem RemoveSystem_spec (it : Iterator) (g g1 : SystemGroup) (w w1 : World)
    (h : (RemoveSystem it g w).state? = some (g1, w1)) :
    w1 = w ∧ g1.started = g.started ∧ g1.systems = g.systems.eraseIdx it ∧
      ∀ p, (g1.event p).Sublist (g.event p) := by
  simp only [RemoveSystem] at h
  cases h0 : g.systems[it]? with
  | none => simp [h0, Outcome.state?] at h
  | some e =>
    cases h1 : UnregisterCallbacks e.2 g with
    | none => simp [h0, h1, Outcome.state?] at h
    | some g2 =>
      simp only [h0, h1, Outcome.state?, Option.some.injEq, Prod.mk.injEq] at h
      obtain ⟨a1, a2, a3⟩ := UnregisterCallbacks_spec _ g g2 h1
      obtain ⟨hg, hw⟩ := h
      subst hg hw
      exact ⟨rfl, a2, by simp only [a1], a3⟩

theorem phase_spec (beh : Behaviour) (event : CallbackList) (g : SystemGroup) (w : World) :
    ∃ w1, (phase beh event g w).state? = some (g, w1) ∧ w1.next = w.next := by
  have hn := Call_next beh event w
  simp only [phase]
  split
  · next e w1 h => exact ⟨w1, rfl, by rw [h] at hn; exact hn⟩
  · next w1 h => exact ⟨w1, rfl, by rw [h] at hn; exact hn⟩

theorem Inv.of_sublist {g g1 : SystemGroup} {w w1 : World} (hI : Inv g w)
    (hs : g1.systems.Sublist g.systems) (hl : ∀ p, (g1.event p).Sublist (g.event p))
    (hn : w.next ≤ w1.next) : Inv g1 w1 where
  sorted := List.Pairwise.sublist hs hI.sorted
  nodup := List.Nodup.sublist (List.Sublist.map _ hs) hI.nodup
  held := fun e he => Nat.lt_of_lt_of_le (hI.held e (hs.subset he)) hn
  listed := fun p n hn1 => Nat.lt_of_lt_of_le (hI.listed p n ((hl p).subset hn1)) hn

theorem Inv.addSystem {beh : Behaviour} {Sys : SystemClass} {args : Args} {g g1 : SystemGroup}
    {w w1 : World} (hI : Inv g w)
    (h : (AddSystem beh Sys args g w).state? = some (g1, w1)) : Inv g1 w1 := by
  cases hc : beh.ctor Sys.type args with
  | some e =>
    rw [AddSystem_ctor_threw beh Sys args g w e hc] at h
    simp only [Outcome.state?, Option.some.injEq, Prod.mk.injEq] at h
    obtain ⟨hg, hw⟩ := h
    subst hg hw
    exact hI
  | none =>
    obtain ⟨g2, w2, h1, _, h3, _, ⟨r, hr, h5⟩, h6⟩ := AddSystem_spec beh Sys args g w hc
    rw [h1] at h
    simp only [Option.some.injEq, Prod.mk.injEq] at h
    obtain ⟨hg, hw⟩ := h
    subst hg hw
    have hperm := Multimap.insert_perm g.systems Sys.type r
    refine ⟨?_, ?_, ?_, ?_⟩
    · rw [h5]; exact Multimap.insert_sorted _ _ _ hI.sorted
    · rw [h5]
      refine (List.Perm.nodup_iff (hperm.map _)).2 ?_
      simp only [List.map_cons, List.nodup_cons]
      refine ⟨?_, hI.nodup⟩
      intro hmem
      obtain ⟨e, he, hex⟩ := List.mem_map.1 hmem
      have hlt := hI.held e he
      rw [hex, hr] at hlt
      exact Nat.lt_irrefl _ hlt
    · intro e he
      rw [h5] at he
      rcases List.mem_cons.1 (hperm.mem_iff.1 he) with rfl | he
      · exact hr ▸ h3
      · exact Nat.lt_trans (hI.held e he) h3
    · intro p n hn
      obtain ⟨extra, he, hx⟩ := h6 p
      rw [he] at hn
      rcases List.mem_append.1 hn with hn | hn
      · exact Nat.lt_trans (hI.listed p n hn) h3
      · rw [hx n hn]; exact h3

theorem Inv.step {beh : Behaviour} {op : Op} {g g1 : SystemGroup} {w w1 : World}
    (hI : Inv g w) (h : op.apply beh g w = some (g1, w1)) : Inv g1 w1 := by
  cases op with
  | AddSystem Sys args => exact hI.addSystem h
  | GetSystems type =>
    simp only [Op.apply, Option.some.injEq, Prod.mk.injEq] at h
    obtain ⟨hg, hw⟩ := h
    subst hg hw
    exact hI
  | RemoveSystems type =>
    obtain ⟨a1, _, a3, a4⟩ := RemoveSystems_spec type g g1 w w1 h
    subst a1
    exact hI.of_sublist (by rw [a3]; exact List.filter_sublist _) a4 (Nat.le_refl _)
  | RemoveSystem it =>
    obtain ⟨a1, _, a3, a4⟩ := RemoveSystem_spec it g g1 w w1 h
    subst a1
    exact hI.of_sublist (by rw [a3]; exact List.eraseIdx_sublist _ _) a4 (Nat.le_refl _)
  | Start =>
    obtain ⟨w2, a1, a2⟩ := phase_spec beh g.OnStart { g with started := true } w
    simp only [Op.apply, SystemGroup.Start, a1, Option.some.injEq, Prod.mk.injEq] at h
    obtain ⟨hg, hw⟩ := h
    subst hg hw
    exact hI.of_sublist (List.Sublist.refl _)
      (fun p => by cases p <;> exact List.Sublist.refl _) (Nat.le_of_eq a2.symm)
  | Update =>
    obtain ⟨w2, a1, a2⟩ := phase_spec beh g.OnUpdate g w
    simp only [Op.apply, SystemGroup.Update, a1, Option.some.injEq, Prod.mk.injEq] at h
    obtain ⟨hg, hw⟩ := h
    subst hg hw
    exact hI.of_sublist (List.Sublist.refl _) (fun p => List.Sublist.refl _)
      (Nat.le_of_eq a2.symm)
  | Tick =>
    obtain ⟨w2, a1, a2⟩ := phase_spec beh g.OnTick g w
    simp only [Op.apply, SystemGroup.Tick, a1, Option.some.injEq, Prod.mk.injEq] at h
    obtain ⟨hg, hw⟩ := h
    subst hg hw
    exact hI.of_sublist (List.Sublist.refl _) (fun p => List.Sublist.refl _)
      (Nat.le_of_eq a2.symm)

theorem Reachable.inv {beh : Behaviour} {g : SystemGroup} {w : World}
    (h : Reachable beh g w) : Inv g w := by
  induction h with
  | ctor w =>
    exact ⟨List.Pairwise.nil, List.nodup_nil, fun e he => (by cases he),
      fun p n hn => (by cases p <;> cases hn)⟩
  | ctor_sys sys w hd hl =>
    obtain ⟨h1, h2⟩ := ctor_sys_fold sys [] List.Pairwise.nil
    simp only [List.map_nil, List.nil_append] at h2
    refine ⟨h1, (List.Perm.nodup_iff h2).2 hd, ?_, fun p n hn => (by cases p <;> cases hn)⟩
    intro e he
    have hm : e.2.system ∈ sys.map Prod.snd :=
      h2.mem_iff.1 (List.mem_map.2 ⟨e, he, rfl⟩)
    obtain ⟨s, hs, hse⟩ := List.mem_map.1 hm
    rw [← hse]
    exact hl s hs
  | step op g w g1 w1 _ hop ih => exact ih.step hop

/-! ## Calls made by a sequence of operations -/

theorem Call_trace (beh : Behaviour) (l : CallbackList) (w : World) :
    ∃ k, (Call beh l w).2.trace = w.trace ++ (l.take k).map Node.value := by
  induction l generalizing w with
  | nil => exact ⟨0, by simp [Call]⟩
  | cons n l ih =>
    simp only [Call, invoke]
    cases h : beh.call w.trace n.value with
    | some e => exact ⟨1, by simp⟩
    | none =>
      obtain ⟨k, hk⟩ := ih { w with trace := w.trace ++ [n.value] }
      exact ⟨k + 1, by simp [hk]⟩

theorem phase_trace (beh : Behaviour) (event : CallbackList) (g : SystemGroup) (w : World)
    (g1 : SystemGroup) (w1 : World) (h : (phase beh event g w).state? = some (g1, w1)) :
    g1 = g ∧ ∃ k, w1.trace = w.trace ++ (event.take k).map Node.value := by
  obtain ⟨k, hk⟩ := Call_trace beh event w
  simp only [phase] at h
  split at h
  · next e w2 hc =>
    simp only [Outcome.state?, Option.some.injEq, Prod.mk.injEq] at h
    rw [hc] at hk
    exact ⟨h.1.symm, k, h.2 ▸ hk⟩
  · next w2 hc =>
    simp only [Outcome.state?, Option.some.injEq, Prod.mk.injEq] at h
    rw [hc] at hk
    exact ⟨h.1.symm, k, h.2 ▸ hk⟩

theorem AddSystem_OnStart (beh : Behaviour) (Sys : SystemClass) (args : Args)
    (g : SystemGroup) (w : World) (hc : beh.ctor Sys.type args = none)
    (ho : Sys.overrides .Start = true) (g1 : SystemGroup) (w1 : World)
    (h : (AddSystem beh Sys args g w).state? = some (g1, w1)) :
    g1.OnStart.map Node.value = g.OnStart.map Node.value ++ [⟨w.next, Sys.slot .Start⟩] := by
  simp only [AddSystem, hc, GetVTable, slot_ne_base] at h
  rcases Sys with ⟨ty, s, u, t⟩
  simp only [SystemClass.overrides] at ho
  subst ho
  cases hst : g.started <;> cases u <;> cases t <;>
    simp only [hst, SystemClass.overrides, RegisterCallback, invoke, Bool.and_false,
      Bool.and_true, Bool.false_and, Bool.true_and, if_true, if_false,
      Bool.false_eq_true] at h
  all_goals try split at h
  all_goals
    simp only [Outcome.state?, Option.some.injEq, Prod.mk.injEq] at h
    obtain ⟨hg, _⟩ := h
    subst hg
    simp

/-- The calls of `cb` cannot come from `Update()`, `Tick()` or a later
`AddSystem`: the component was allocated before `w.next` and is registered in
neither `OnUpdate` nor `OnTick` with this function. -/
theorem step_avoids (beh : Behaviour) (cb : Callback) (op : Op) (hop : op ≠ Op.Start)
    (g g1 : SystemGroup) (w w1 : World)
    (hJ : cb.system < w.next ∧ cb ∉ g.OnUpdate.map Node.value ∧
      cb ∉ g.OnTick.map Node.value)
    (h : op.apply beh g w = some (g1, w1)) :
    (cb.system < w1.next ∧ cb ∉ g1.OnUpdate.map Node.value ∧
      cb ∉ g1.OnTick.map Node.value) ∧
    ∃ ext, w1.trace = w.trace ++ ext ∧ cb ∉ ext := by
  obtain ⟨hJ1, hJ2, hJ3⟩ := hJ
  cases op with
  | Start => exact absurd rfl hop
  | GetSystems type =>
    simp only [Op.apply, Option.some.injEq, Prod.mk.injEq] at h
    obtain ⟨hg, hw⟩ := h
    subst hg hw
    exact ⟨⟨hJ1, hJ2, hJ3⟩, [], by simp, by simp⟩
  | RemoveSystems type =>
    obtain ⟨a1, _, _, a4⟩ := RemoveSystems_spec type g g1 w w1 h
    subst a1
    exact ⟨⟨hJ1, fun hm => hJ2 ((List.Sublist.map _ (a4 .Update)).subset hm),
      fun hm => hJ3 ((List.Sublist.map _ (a4 .Tick)).subset hm)⟩, [], by simp, by simp⟩
  | RemoveSystem it =>
    obtain ⟨a1, _, _, a4⟩ := RemoveSystem_spec it g g1 w w1 h
    subst a1
    exact ⟨⟨hJ1, fun hm => hJ2 ((List.Sublist.map _ (a4 .Update)).subset hm),
      fun hm => hJ3 ((List.Sublist.map _ (a4 .Tick)).subset hm)⟩, [], by simp, by simp⟩
  | Update =>
    obtain ⟨w2, a1, a2⟩ := phase_spec beh g.OnUpdate g w
    obtain ⟨b1, k, b2⟩ := phase_trace beh g.OnUpdate g w g1 w1 h
    simp only [Op.apply, SystemGroup.Update, a1, Option.some.injEq, Prod.mk.injEq] at h
    subst b1
    refine ⟨⟨by rw [← h.2, a2]; exact hJ1, hJ2, hJ3⟩, _, b2, ?_⟩
    exact fun hm => hJ2 ((List.Sublist.map _ (List.take_sublist _ _)).subset hm)
  | Tick =>
    obtain ⟨w2, a1, a2⟩ := phase_spec beh g.OnTick g w
    obtain ⟨b1, k, b2⟩ := phase_trace beh g.OnTick g w g1 w1 h
    simp only [Op.apply, SystemGroup.Tick, a1, Option.some.injEq, Prod.mk.injEq] at h
    subst b1
    refine ⟨⟨by rw [← h.2, a2]; exact hJ1, hJ2, hJ3⟩, _, b2, ?_⟩
    exact fun hm => hJ3 ((List.Sublist.map _ (List.take_sublist _ _)).subset hm)
  | AddSystem Sys args =>
    simp only [Op.apply] at h
    cases hc : beh.ctor Sys.type args with
    | some e =>
      rw [AddSystem_ctor_threw beh Sys args g w e hc] at h
      simp only [Outcome.state?, Option.some.injEq, Prod.mk.injEq] at h
      obtain ⟨hg, hw⟩ := h
      subst hg hw
      exact ⟨⟨hJ1, hJ2, hJ3⟩, [], by simp, by simp⟩
    | none =>
      obtain ⟨g2, w2, h1, _, h3, h4, _, h6⟩ := AddSystem_spec beh Sys args g w hc
      rw [h1] at h
      simp only [Option.some.injEq, Prod.mk.injEq] at h
      obtain ⟨hg, hw⟩ := h
      subst hg hw
      have hne : ∀ f, cb ≠ ⟨w.next, f⟩ := by
        intro f hcb
        rw [hcb] at hJ1
        exact Nat.lt_irrefl _ hJ1
      have hlist : ∀ p, cb ∉ (g.event p).map Node.value →
          cb ∉ (g2.event p).map Node.value := by
        intro p hp hm
        obtain ⟨extra, he, hx⟩ := h6 p
        rw [he, List.map_append] at hm
        rcases List.mem_append.1 hm with hm | hm
        · exact hp hm
        · obtain ⟨n, hn, hnv⟩ := List.mem_map.1 hm
          rw [hx n hn] at hnv
          exact hne _ hnv.symm
      refine ⟨⟨Nat.lt_trans hJ1 h3, hlist .Update hJ2, hlist .Tick hJ3⟩, _, h4, ?_⟩
      split
      · intro hm
        exact hne _ (List.mem_singleton.1 hm)
      · simp

theorem run_avoids (beh : Behaviour) (cb : Callback) (ops : List Op)
    (hns : Op.Start ∉ ops) (g g1 : SystemGroup) (w w1 : World)
    (hJ : cb.system < w.next ∧ cb ∉ g.OnUpdate.map Node.value ∧
      cb ∉ g.OnTick.map Node.value)
    (h : run beh ops g w = some (g1, w1)) :
    ∃ ext, w1.trace = w.trace ++ ext ∧ cb ∉ ext := by
  induction ops generalizing g w with
  | nil =>
    simp only [run, Option.some.injEq, Prod.mk.injEq] at h
    exact ⟨[], by simp [h.2], by simp⟩
  | cons op ops ih =>
    simp only [run] at h
    cases ha : op.apply beh g w with
    | none => simp [ha] at h
    | some s =>
      obtain ⟨g2, w2⟩ := s
      simp only [ha] at h
      have hop : op ≠ Op.Start := fun he => hns (he ▸ List.mem_cons_self _ _)
      obtain ⟨hJ2, e1, he1, hn1⟩ := step_avoids beh cb op hop g g2 w w2 hJ ha
      obtain ⟨e2, he2, hn2⟩ := ih (fun hm => hns (List.mem_cons_of_mem _ hm)) g2 w2 hJ2 h
      refine ⟨e1 ++ e2, by rw [he2, he1, List.append_assoc], ?_⟩
      intro hm
      rcases List.mem_append.1 hm with hm | hm
      · exact hn1 hm
      · exact hn2 hm

/-- C3 as stated fails: `Start()`, then `AddSystem<C>` (`C` overrides `Start`),
then `Start()` again. The add calls `C.Start` once (catch-up) and the later
`Start()` of the group calls it a second time. -/
theorem C3_counterexample_second_start_calls_again :
    (run quiet [.Start, .AddSystem clsC 0] ctor world0).map (fun s => s.2.trace) =
      some [⟨100, clsC.slot .Start⟩] ∧
    (run quiet [.Start, .AddSystem clsC 0, .Start] ctor world0).map (fun s => s.2.trace) =
      some [⟨100, clsC.slot .Start⟩, ⟨100, clsC.slot .Start⟩] ∧
    ¬ ∀ ops : List Op, ∀ s, run quiet (.Start :: .AddSystem clsC 0 :: ops) ctor world0 = some s →
      s.2.trace.count ⟨100, clsC.slot .Start⟩ = 1 := by
  refine ⟨by decide, by decide, ?_⟩
  intro h
  have h2 := h [.Start] _ rfl
  revert h2
  decide

/-- C3, amended: a component `C` that overrides `Start` and is added while the
group is started has `C.Start` called once by `AddSystem` (the catch-up call)
and is registered in `OnStart`; over any sequence of operations after the add
that contains no `Start()` of the group, `C.Start` is called once in total. -/
theorem C3_catch_up_start_once_until_group_start (beh : Behaviour) (g : SystemGroup)
    (w : World) (hr : Reachable beh g w) (hs : g.started = true) (Sys : SystemClass)
    (args : Args) (ho : Sys.overrides .Start = true) (hc : beh.ctor Sys.type args = none)
    (ops : List Op) (hns : Op.Start ∉ ops) :
    ∃ g1 w1, (AddSystem beh Sys args g w).state? = some (g1, w1) ∧
      w1.trace = w.trace ++ [⟨w.next, Sys.slot .Start⟩] ∧
      (⟨w.next, Sys.slot .Start⟩ : Callback) ∈ g1.OnStart.map Node.value ∧
      ∀ g2 w2, run beh ops g1 w1 = some (g2, w2) →
        ∃ ext, w2.trace = w.trace ++ ext ∧ ext.count ⟨w.next, Sys.slot .Start⟩ = 1 := by
  obtain ⟨g1, w1, h1, _, h3, h4, _, h6⟩ := AddSystem_spec beh Sys args g w hc
  have hI := hr.inv
  have hfresh : ∀ p, (⟨w.next, Sys.slot .Start⟩ : Callback) ∉ (g.event p).map Node.value := by
    intro p hm
    obtain ⟨n, hn, hnv⟩ := List.mem_map.1 hm
    have hlt := hI.listed p n hn
    rw [hnv] at hlt
    exact Nat.lt_irrefl _ hlt
  have hlist : ∀ p, p ≠ Phase.Start →
      (⟨w.next, Sys.slot .Start⟩ : Callback) ∉ (g1.event p).map Node.value := by
    intro p hp hm
    obtain ⟨extra, he, hx⟩ := h6 p
    rw [he, List.map_append] at hm
    rcases List.mem_append.1 hm with hm | hm
    · exact hfresh p hm
    · obtain ⟨n, hn, hnv⟩ := List.mem_map.1 hm
      rw [hx n hn] at hnv
      have hsl : Sys.slot p = Sys.slot .Start := by
        have := congrArg Callback.func hnv
        exact this
      exact hp (slot_phase_inj Sys p .Start hsl)
  have ht : w1.trace = w.trace ++ [⟨w.next, Sys.slot .Start⟩] := by
    rw [h4, hs, ho]; rfl
  refine ⟨g1, w1, h1, ht, ?_, ?_⟩
  · rw [AddSystem_OnStart beh Sys args g w hc ho g1 w1 h1]
    simp
  · intro g2 w2 hrun
    obtain ⟨ext, he, hn⟩ := run_avoids beh ⟨w.next, Sys.slot .Start⟩ ops hns g1 g2 w1 w2
      ⟨h3, hlist .Update (by decide), hlist .Tick (by decide)⟩ hrun
    refine ⟨⟨w.next, Sys.slot .Start⟩ :: ext, by rw [he, ht]; simp, ?_⟩
    rw [List.count_cons_self, List.count_eq_zero_of_not_mem hn]

/-- C3 amended, on an instance: `C` is added to a started group, then `Update()`
and `Tick()` are called: `C.Start` has been called once. -/
theorem C3_catch_up_start_once_until_group_start_witness :
    Reachable quiet { ctor with started := true } world0 ∧
    ({ ctor with started := true } : SystemGroup).started = true ∧
    clsC.overrides .Start = true ∧ quiet.ctor clsC.type 0 = none ∧
    Op.Start ∉ [Op.Update, Op.Tick] ∧
    ∃ g1 w1, (AddSystem quiet clsC 0 { ctor with started := true } world0).state? =
        some (g1, w1) ∧
      ∀ g2 w2, run quiet [Op.Update, Op.Tick] g1 w1 = some (g2, w2) →
        ∃ ext, w2.trace = world0.trace ++ ext ∧ ext.count ⟨100, clsC.slot .Start⟩ = 1 := by
  have hr : Reachable quiet { ctor with started := true } world0 :=
    Reachable.step Op.Start ctor world0 _ _ (Reachable.ctor world0) rfl
  refine ⟨hr, rfl, rfl, rfl, by decide, ?_⟩
  obtain ⟨g1, w1, h1, _, _, h4⟩ := C3_catch_up_start_once_until_group_start quiet
    { ctor with started := true } world0 hr rfl clsC 0 rfl rfl [Op.Update, Op.Tick] (by decide)
  exact ⟨g1, w1, h1, h4⟩

/-! ## Looking up by type -/

theorem take_length_takeWhile {α : Type} (p : α → Bool) (l : List α) :
    l.take (l.takeWhile p).length = l.takeWhile p := by
  induction l with
  | nil => rfl
  | cons a l ih =>
    by_cases h : p a <;> simp [List.takeWhile_cons, h, ih]

theorem Multimap.filter_eq_nil_of_lt (m : Multimap) (k : TypeIndex)
    (hk : ∀ b ∈ m, k < b.1) : m.filter (fun e => e.1 == k) = [] := by
  rw [List.filter_eq_nil_iff]
  intro b hb
  simp only [beq_iff_eq]
  exact Nat.ne_of_gt (hk b hb)

theorem Multimap.takeWhile_le_eq_filter (m : Multimap) (k : TypeIndex)
    (hs : m.Pairwise (fun a b => a.1 ≤ b.1)) (hk : ∀ b ∈ m, k ≤ b.1) :
    m.takeWhile (fun e => decide (e.1 ≤ k)) = m.filter (fun e => e.1 == k) := by
  induction m with
  | nil => rfl
  | cons e m ih =>
    rw [List.pairwise_cons] at hs
    have hke := hk e (List.mem_cons_self _ _)
    by_cases h : e.1 ≤ k
    · have he : e.1 = k := Nat.le_antisymm h hke
      simp [List.takeWhile_cons, List.filter_cons, he,
        ← ih hs.2 (fun b hb => hk b (List.mem_cons_of_mem _ hb))]
    · have hlt : k < e.1 := Nat.lt_of_not_le h
      have hnil := Multimap.filter_eq_nil_of_lt m k
        (fun b hb => Nat.lt_of_lt_of_le hlt (hs.1 b hb))
      have hne : ¬ e.1 = k := Nat.ne_of_gt hlt
      simp [List.takeWhile_cons, List.filter_cons, h, hnil, hne]

theorem Multimap.entries_equal_range (m : Multimap) (k : TypeIndex)
    (hs : m.Pairwise (fun a b => a.1 ≤ b.1)) :
    (Multimap.equal_range m k).entries m = m.filter (fun e => e.1 == k) := by
  induction m with
  | nil => rfl
  | cons e m ih =>
    have hs1 := hs
    rw [List.pairwise_cons] at hs1
    have ih1 := ih hs1.2
    simp only [Subrange.entries, Multimap.equal_range, Multimap.lower_bound,
      Multimap.upper_bound] at ih1 ⊢
    rcases Nat.lt_trichotomy e.1 k with hlt | heq | hgt
    · have hle : e.1 ≤ k := Nat.le_of_lt hlt
      have hne : ¬ e.1 = k := Nat.ne_of_lt hlt
      simp [List.takeWhile_cons, hlt, hle, List.filter_cons, hne, ih1]
    · have hnlt : ¬ e.1 < k := Nat.not_lt.2 (Nat.le_of_eq heq.symm)
      have hle : e.1 ≤ k := Nat.le_of_eq heq
      have htw := Multimap.takeWhile_le_eq_filter m k hs1.2
        (fun b hb => heq ▸ hs1.1 b hb)
      have h1 : List.takeWhile (fun e => decide (e.1 < k)) (e :: m) = [] := by
        simp [List.takeWhile_cons, hnlt]
      have h2 : List.takeWhile (fun e => decide (e.1 ≤ k)) (e :: m) =
          e :: List.takeWhile (fun e => decide (e.1 ≤ k)) m := by
        simp [List.takeWhile_cons, hle]
      rw [h1, h2]
      simp only [List.length_nil, List.length_cons, List.drop_zero, Nat.sub_zero,
        List.take_succ_cons, take_length_takeWhile]
      rw [htw]
      simp [List.filter_cons, heq]
    · have hnlt : ¬ e.1 < k := Nat.not_lt.2 (Nat.le_of_lt hgt)
      have hnle : ¬ e.1 ≤ k := Nat.not_le.2 hgt
      have hne : ¬ e.1 = k := Nat.ne_of_gt hgt
      have hnil := Multimap.filter_eq_nil_of_lt m k
        (fun b hb => Nat.lt_of_lt_of_le hgt (hs1.1 b hb))
      simp [List.takeWhile_cons, hnlt, hnle, List.filter_cons, hne, hnil]

/-! ## Removal -/

theorem UnregisterCallbacks_undefined_of_null (record : SystemRecord) (g : SystemGroup)
    (h : record.Start = none ∨ record.Update = none ∨ record.Tick = none) :
    UnregisterCallbacks record g = none := by
  simp only [UnregisterCallbacks]
  rcases h with h | h | h
  · simp [h, CallbackList.erase]
  · cases CallbackList.erase g.OnStart record.Start <;> simp [h, CallbackList.erase]
  · cases CallbackList.erase g.OnStart record.Start <;>
      cases CallbackList.erase g.OnUpdate record.Update <;> simp [h, CallbackList.erase]

/-- C4: the scenario of the claim. `A` (overrides `Update` only) and `B`
(overrides `Start` and `Update`) are added, `Start()` and `Update()` run. The
record of `A` then holds no handle into `OnStart`, and `RemoveSystems(A)`
erases from `OnStart` through that null handle: its behaviour is undefined, so
nothing is established about a later `Update()`. With a class `D` that
overrides all three phases in place of `A`, the removal returns and the later
`Update()` calls `B.Update` only. -/
theorem C4_RemoveSystems_undefined_for_missing_handle :
    (run quiet [.AddSystem clsA 0, .AddSystem clsB 0, .Start, .Update] ctor world0).map
        (fun s => s.1.systems) =
      some [(5, ⟨102, some 103, some 104, none⟩), (7, ⟨100, none, some 101, none⟩)] ∧
    run quiet [.AddSystem clsA 0, .AddSystem clsB 0, .Start, .Update, .RemoveSystems clsA.type]
        ctor world0 = none ∧
    (run quiet [.AddSystem clsD 0, .AddSystem clsB 0, .RemoveSystems clsD.type, .Update]
        ctor world0).map (fun s => (s.1.systems.map Prod.fst, s.2.trace)) =
      some ([5], [⟨104, clsB.slot .Update⟩]) := by
  decide

/-- C5: two components of class `A` (overrides `Update` only) are added;
`RemoveSystem(begin())` erases from `OnStart` through the null handle of the
record: its behaviour is undefined. With class `D` (overrides all three
phases) the same call removes the first entry and its three callbacks and
keeps the second entry and its callbacks. -/
theorem C5_RemoveSystem_undefined_for_missing_handle :
    (run quiet [.AddSystem clsA 0, .AddSystem clsA 0] ctor world0).map (fun s => s.1.systems) =
      some [(7, ⟨100, none, some 101, none⟩), (7, ⟨102, none, some 103, none⟩)] ∧
    run quiet [.AddSystem clsA 0, .AddSystem clsA 0, .RemoveSystem 0] ctor world0 = none ∧
    (run quiet [.AddSystem clsD 0, .AddSystem clsD 0, .RemoveSystem 0] ctor world0).map
        (fun s => (s.1.systems, s.1.OnStart.map Node.addr, s.1.OnUpdate.map Node.addr,
          s.1.OnTick.map Node.addr)) =
      some ([(9, ⟨104, some 105, some 106, some 107⟩)], [105], [106], [107]) := by
  decide

/-- C6: after `AddSystem<A>` (`A` overrides `Update` only) the record of `A`
holds no handle into `OnStart` or `OnTick`, yet `UnregisterCallbacks` erases
from `OnStart` with it: that erasure has no defined behaviour, while the one on
`OnUpdate` alone would be valid. -/
theorem C6_UnregisterCallbacks_erases_through_null_handle :
    (run quiet [.AddSystem clsA 0] ctor world0).map (fun s => s.1.systems) =
      some [(7, ⟨100, none, some 101, none⟩)] ∧
    (run quiet [.AddSystem clsA 0] ctor world0).map
        (fun s => CallbackList.erase s.1.OnStart (none : ListIterator)) = some none ∧
    (run quiet [.AddSystem clsA 0] ctor world0).map
        (fun s => CallbackList.erase s.1.OnUpdate (some 101)) = some (some []) ∧
    (run quiet [.AddSystem clsA 0] ctor world0).map
        (fun s => UnregisterCallbacks ⟨100, none, some 101, none⟩ s.1) = some none := by
  decide

/-- C7: in every reachable group, `GetSystems(T)` yields exactly the entries of
the store whose key is `T`, in store order and without repetition; it reads
the store only, so registration in the phase lists plays no part. -/
theorem C7_GetSystems_yields_entries_of_key (beh : Behaviour) (g : SystemGroup) (w : World)
    (hr : Reachable beh g w) (T : TypeIndex) :
    (GetSystems g T).entries g.systems = g.systems.filter (fun e => e.1 == T) ∧
    (∀ e, e ∈ (GetSystems g T).entries g.systems ↔ e ∈ g.systems ∧ e.1 = T) ∧
    ((GetSystems g T).entries g.systems).Nodup ∧
    (∀ g1 : SystemGroup, g1.systems = g.systems →
      (GetSystems g1 T).entries g1.systems = (GetSystems g T).entries g.systems) := by
  have hI := hr.inv
  have h := Multimap.entries_equal_range g.systems T hI.sorted
  refine ⟨h, ?_, ?_, ?_⟩
  · intro e
    rw [GetSystems, h, List.mem_filter, beq_iff_eq]
  · rw [GetSystems, h]
    exact List.Nodup.sublist (List.filter_sublist _) (List.Nodup.of_map _ hI.nodup)
  · intro g1 h1
    simp only [GetSystems, h1]

/-- C7, on an instance: a group built by the pointer constructor holds two
components under key 4 and one under key 2, none of them registered in a
phase list; `GetSystems(4)` yields the two. -/
theorem C7_GetSystems_yields_entries_of_key_witness :
    Reachable quiet (ctor_sys [(4, 1), (2, 2), (4, 3)]) world0 ∧
    (GetSystems (ctor_sys [(4, 1), (2, 2), (4, 3)]) 4).entries
        (ctor_sys [(4, 1), (2, 2), (4, 3)]).systems =
      [(4, ⟨1, none, none, none⟩), (4, ⟨3, none, none, none⟩)] := by
  have hr : Reachable quiet (ctor_sys [(4, 1), (2, 2), (4, 3)]) world0 :=
    Reachable.ctor_sys _ _ (by decide) (by decide)
  exact ⟨hr, (C7_GetSystems_yields_entries_of_key quiet _ world0 hr 4).1.trans (by decide)⟩

/-! ## Errors raised by a callback -/

theorem Call_raise (beh : Behaviour) (pre post : CallbackList) (c : Node) (e : Error)
    (w : World)
    (hpre : ∀ (pre1 : CallbackList) (n : Node) (rest : CallbackList), pre = pre1 ++ n :: rest →
      beh.call (w.trace ++ pre1.map Node.value) n.value = none)
    (hc : beh.call (w.trace ++ pre.map Node.value) c.value = some e) :
    Call beh (pre ++ c :: post) w =
      (some e, { w with trace := w.trace ++ pre.map Node.value ++ [c.value] }) := by
  induction pre generalizing w with
  | nil =>
    simp only [List.map_nil, List.append_nil] at hc
    simp [Call, invoke, hc]
  | cons n pre ih =>
    have hn : beh.call w.trace n.value = none := by
      have := hpre [] n pre rfl
      simpa using this
    have hstep : Call beh (n :: pre ++ c :: post) w =
        Call beh (pre ++ c :: post) { w with trace := w.trace ++ [n.value] } := by
      simp only [List.cons_append, Call, invoke, hn]
      rfl
    rw [hstep, ih { w with trace := w.trace ++ [n.value] }]
    · simp
    · intro pre1 m rest hsplit
      have := hpre (n :: pre1) m rest (by rw [hsplit]; rfl)
      simpa using this
    · simpa using hc

theorem Call_first (beh : Behaviour) (l : CallbackList) (w : World) (hl : l ≠ []) :
    ∃ k, 0 < k ∧ (Call beh l w).2.trace = w.trace ++ (l.take k).map Node.value := by
  cases l with
  | nil => exact absurd rfl hl
  | cons n l =>
    simp only [Call, invoke]
    cases h : beh.call w.trace n.value with
    | some e => exact ⟨1, Nat.one_pos, by simp⟩
    | none =>
      obtain ⟨k, hk⟩ := Call_trace beh l { w with trace := w.trace ++ [n.value] }
      exact ⟨k + 1, Nat.succ_pos k, by simp [hk]⟩

theorem callPhase_eq (beh : Behaviour) (p : Phase) (g : SystemGroup) (w : World) :
    ∃ g0, callPhase beh p g w = phase beh (g.event p) g0 w ∧ g0.systems = g.systems ∧
      (∀ q, g0.event q = g.event q) ∧ (g.started = true → g0.started = true) ∧
      (p ≠ Phase.Start → g0 = g) ∧ (p = Phase.Start → g0.started = true) := by
  cases p
  · exact ⟨{ g with started := true }, rfl, rfl, fun q => by cases q <;> rfl, fun _ => rfl,
      fun h => absurd rfl h, fun _ => rfl⟩
  · exact ⟨g, rfl, rfl, fun _ => rfl, id, fun _ => rfl, fun h => by cases h⟩
  · exact ⟨g, rfl, rfl, fun _ => rfl, id, fun _ => rfl, fun h => by cases h⟩

/-- C8: the list of phase `p` is `pre ++ c :: post`, every callback of `pre`
returns and `c` raises `e`. Then the phase call of the group lets `e` escape
after calling the callbacks of `pre` once each, in order, and then `c`; no
callback of `post` is called; the store and the three lists are unchanged; and
a following call of the same phase starts again from the first entry. -/
theorem C8_error_in_callback_stops_phase (beh : Behaviour) (p : Phase) (g : SystemGroup)
    (w : World) (pre post : CallbackList) (c : Node) (e : Error)
    (hl : g.event p = pre ++ c :: post)
    (hpre : ∀ (pre1 : CallbackList) (n : Node) (rest : CallbackList), pre = pre1 ++ n :: rest →
      beh.call (w.trace ++ pre1.map Node.value) n.value = none)
    (hc : beh.call (w.trace ++ pre.map Node.value) c.value = some e) :
    ∃ g1 w1, callPhase beh p g w = .threw e g1 w1 ∧
      w1.trace = w.trace ++ pre.map Node.value ++ [c.value] ∧
      g1.systems = g.systems ∧ (∀ q, g1.event q = g.event q) ∧
      ∀ g2 w2, (callPhase beh p g1 w1).state? = some (g2, w2) →
        ∃ k, 0 < k ∧ w2.trace = w1.trace ++ ((g.event p).take k).map Node.value := by
  obtain ⟨g0, h0, hsys, hev, _, _, _⟩ := callPhase_eq beh p g w
  have hcall := Call_raise beh pre post c e w hpre hc
  refine ⟨g0, { w with trace := w.trace ++ pre.map Node.value ++ [c.value] }, ?_, rfl, hsys,
    hev, ?_⟩
  · rw [h0, hl]
    simp only [phase, hcall]
  · intro g2 w2 h2
    obtain ⟨g3, h3, _, _, _, _, _⟩ := callPhase_eq beh p g0
      { w with trace := w.trace ++ pre.map Node.value ++ [c.value] }
    rw [h3, hev p] at h2
    have hne : g.event p ≠ [] := by rw [hl]; simp
    obtain ⟨k, hk0, hk⟩ := Call_first beh (g.event p)
      { w with trace := w.trace ++ pre.map Node.value ++ [c.value] } hne
    refine ⟨k, hk0, ?_⟩
    simp only [phase] at h2
    split at h2
    · next e2 w3 hc3 =>
      simp only [Outcome.state?, Option.some.injEq, Prod.mk.injEq] at h2
      rw [hc3] at hk
      exact h2.2 ▸ hk
    · next w3 hc3 =>
      simp only [Outcome.state?, Option.some.injEq, Prod.mk.injEq] at h2
      rw [hc3] at hk
      exact h2.2 ▸ hk

/-- C8, on an instance: `A`, `B`, `D` all override `Update` and `B.Update`
raises 42: `Update()` calls `A.Update`, then `B.Update`, lets 42 escape and
does not call `D.Update`. -/
theorem C8_error_in_callback_stops_phase_witness :
    groupABD.event .Update =
      [⟨101, ⟨100, .overriding 7 .Update⟩⟩] ++
        ⟨104, ⟨102, .overriding 5 .Update⟩⟩ :: [⟨107, ⟨105, .overriding 9 .Update⟩⟩] ∧
    failingB.call (worldABD.trace ++ [⟨100, .overriding 7 .Update⟩])
      ⟨102, .overriding 5 .Update⟩ = some 42 ∧
    ∃ g1 w1, callPhase failingB .Update groupABD worldABD = .threw 42 g1 w1 ∧
      w1.trace = [⟨100, .overriding 7 .Update⟩, ⟨102, .overriding 5 .Update⟩] ∧
      g1.OnUpdate = groupABD.OnUpdate := by
  have hl : groupABD.event .Update =
      [⟨101, ⟨100, .overriding 7 .Update⟩⟩] ++
        ⟨104, ⟨102, .overriding 5 .Update⟩⟩ :: [⟨107, ⟨105, .overriding 9 .Update⟩⟩] := by
    decide
  refine ⟨hl, rfl, ?_⟩
  obtain ⟨g1, w1, h1, h2, _, h4, _⟩ := C8_error_in_callback_stops_phase failingB .Update
    groupABD worldABD [⟨101, ⟨100, .overriding 7 .Update⟩⟩] [⟨107, ⟨105, .overriding 9 .Update⟩⟩]
    ⟨104, ⟨102, .overriding 5 .Update⟩⟩ 42 hl
    (by
      intro pre1 n rest h
      cases pre1 with
      | nil =>
        simp only [List.nil_append, List.cons.injEq] at h
        rw [← h.1]
        rfl
      | cons a pre1 =>
        simp only [List.cons_append, List.cons.injEq] at h
        have := h.2
        simp at this)
    rfl
  exact ⟨g1, w1, h1, h2.trans (by decide), h4 .Update⟩

/-- C9: the started flag is false in a newly constructed group (either
constructor); after `Start()` it is true, whether `Start()` returned or let an
error escape; no operation turns it from true to false, and every operation
other than `Start()` leaves it as it was. -/
theorem C9_started_flag_monotonic (beh : Behaviour) :
    SystemGroup.ctor.started = false ∧
    (∀ sys, (SystemGroup.ctor_sys sys).started = false) ∧
    (∀ g w, ∃ g1 w1, (Start beh g w).state? = some (g1, w1) ∧ g1.started = true) ∧
    (∀ (op : Op) g w g1 w1, op.apply beh g w = some (g1, w1) →
      (g.started = true → g1.started = true) ∧ (op ≠ Op.Start → g1.started = g.started)) := by
  refine ⟨rfl, fun _ => rfl, ?_, ?_⟩
  · intro g w
    obtain ⟨w1, h1, _⟩ := phase_spec beh g.OnStart { g with started := true } w
    exact ⟨_, w1, h1, rfl⟩
  · intro op g w g1 w1 h
    have key : g1.started = g.started ∨ (op = Op.Start ∧ g1.started = true) := by
      cases op with
      | AddSystem Sys args =>
        left
        simp only [Op.apply] at h
        cases hc : beh.ctor Sys.type args with
        | some e =>
          rw [AddSystem_ctor_threw beh Sys args g w e hc] at h
          simp only [Outcome.state?, Option.some.injEq, Prod.mk.injEq] at h
          rw [← h.1]
        | none =>
          obtain ⟨g2, w2, h1, h2, _⟩ := AddSystem_spec beh Sys args g w hc
          rw [h1] at h
          simp only [Option.some.injEq, Prod.mk.injEq] at h
          rw [← h.1, h2]
      | GetSystems type =>
        left
        simp only [Op.apply, Option.some.injEq, Prod.mk.injEq] at h
        rw [← h.1]
      | RemoveSystems type => exact Or.inl (RemoveSystems_spec type g g1 w w1 h).2.1
      | RemoveSystem it => exact Or.inl (RemoveSystem_spec it g g1 w w1 h).2.1
      | Start =>
        right
        obtain ⟨w2, a1, _⟩ := phase_spec beh g.OnStart { g with started := true } w
        simp only [Op.apply, SystemGroup.Start, a1, Option.some.injEq, Prod.mk.injEq] at h
        exact ⟨rfl, by rw [← h.1]⟩
      | Update =>
        left
        obtain ⟨w2, a1, _⟩ := phase_spec beh g.OnUpdate g w
        simp only [Op.apply, SystemGroup.Update, a1, Option.some.injEq, Prod.mk.injEq] at h
        rw [← h.1]
      | Tick =>
        left
        obtain ⟨w2, a1, _⟩ := phase_spec beh g.OnTick g w
        simp only [Op.apply, SystemGroup.Tick, a1, Option.some.injEq, Prod.mk.injEq] at h
        rw [← h.1]
    rcases key with hk | ⟨hop, hk⟩
    · exact ⟨fun hs => hk.trans hs, fun _ => hk⟩
    · exact ⟨fun _ => hk, fun hne => absurd hop hne⟩

/-- C10: in every reachable group, iterating the store from `begin()` to
`end()` yields all its entries; no component is held by two entries; the keys
are in non-decreasing order, so the entries of one key are contiguous. -/
theorem C10_store_iteration_in_key_order (beh : Behaviour) (g : SystemGroup) (w : World)
    (hr : Reachable beh g w) :
    (Subrange.mk (begin g) (end_ g)).entries g.systems = g.systems ∧
    (g.systems.map (fun e => e.2.system)).Nodup ∧
    g.systems.Pairwise (fun a b => a.1 ≤ b.1) ∧
    (∀ (pre mid post : Multimap) (a b : TypeIndex × SystemRecord),
      g.systems = pre ++ a :: (mid ++ b :: post) → a.1 = b.1 → ∀ c ∈ mid, c.1 = a.1) := by
  have hI := hr.inv
  refine ⟨?_, hI.nodup, hI.sorted, ?_⟩
  · simp [Subrange.entries, begin, end_]
  · intro pre mid post a b hsplit hab c hc
    have hs := hI.sorted
    rw [hsplit, List.pairwise_append] at hs
    have h1 := hs.2.1
    rw [List.pairwise_cons] at h1
    have hac : a.1 ≤ c.1 := h1.1 c (List.mem_append_left _ hc)
    have h2 := h1.2
    rw [List.pairwise_append] at h2
    have hcb : c.1 ≤ b.1 := h2.2.2 c hc b (List.mem_cons_self _ _)
    exact Nat.le_antisymm (hab ▸ hcb) hac

/-- C10, on an instance: `A` (key 7) is added before `B` (key 5) and `D`
(key 9); the store is iterated in the order `B`, `A`, `D`. -/
theorem C10_store_iteration_in_key_order_witness :
    Reachable quiet groupABD worldABD ∧
    ((Subrange.mk (begin groupABD) (end_ groupABD)).entries groupABD.systems).map
        (fun e => (e.1, e.2.system)) = [(5, 102), (7, 100), (9, 105)] := by
  have hr : Reachable quiet groupABD worldABD :=
    Reachable.step (.AddSystem clsD 0) _ _ _ _
      (Reachable.step (.AddSystem clsB 0) _ _ _ _
        (Reachable.step (.AddSystem clsA 0) _ _ _ _ (Reachable.ctor world0) rfl) rfl) rfl
  refine ⟨hr, ?_⟩
  rw [(C10_store_iteration_in_key_order quiet groupABD worldABD hr).1]
  decide

/-! ## The state `AddSystem` leaves behind -/

theorem AddSystem_links (beh : Behaviour) (Sys : SystemClass) (args : Args)
    (g : SystemGroup) (w : World) (hc : beh.ctor Sys.type args = none) :
    ∃ g1 w1, (AddSystem beh Sys args g w).state? = some (g1, w1) ∧ w.next < w1.next ∧
      ∃ r : SystemRecord, r.system = w.next ∧
        g1.systems = Multimap.insert g.systems Sys.type r ∧
        ∀ p, (∃ a, r.handle p = some a ∧ w.next < a ∧ a < w1.next ∧
            g1.event p = g.event p ++ [⟨a, ⟨w.next, Sys.slot p⟩⟩]) ∨
          (r.handle p = none ∧ g1.event p = g.event p) := by
  simp only [AddSystem, hc, GetVTable, slot_ne_base]
  rcases Sys with ⟨ty, s, u, t⟩
  cases hst : g.started <;> cases s <;> cases u <;> cases t <;>
    simp only [SystemClass.overrides, RegisterCallback, invoke, Bool.and_false, Bool.and_true,
      Bool.false_and, Bool.true_and, if_true, if_false, Bool.false_eq_true]
  all_goals try split
  all_goals
    refine ⟨_, _, rfl, ?_, _, rfl, rfl, ?_⟩
    · simp only []; omega
    · intro p
      cases p <;> simp [SystemGroup.event, SystemRecord.handle] <;> omega

theorem AddSystem_returned (beh : Behaviour) (Sys : SystemClass) (args : Args)
    (g g1 : SystemGroup) (w w1 : World) (v : SystemPtr)
    (h : AddSystem beh Sys args g w = .returned v g1 w1) :
    v = w.next ∧ beh.ctor Sys.type args = none ∧ g1.started = g.started ∧
      w.next < w1.next ∧
      ∃ r : SystemRecord, r.system = w.next ∧
        g1.systems = Multimap.insert g.systems Sys.type r ∧
        ∀ p, (Sys.overrides p = true → ∃ a, r.handle p = some a ∧ w.next < a ∧ a < w1.next ∧
            g1.event p = g.event p ++ [⟨a, ⟨w.next, Sys.slot p⟩⟩]) ∧
          (Sys.overrides p = false → r.handle p = none ∧ g1.event p = g.event p) := by
  cases hc : beh.ctor Sys.type args with
  | some e =>
    rw [AddSystem_ctor_threw beh Sys args g w e hc] at h
    cases h
  | none =>
    simp only [AddSystem, hc, GetVTable, slot_ne_base] at h
    rcases Sys with ⟨ty, s, u, t⟩
    cases hst : g.started <;> cases s <;> cases u <;> cases t <;>
      simp only [hst, SystemClass.overrides, RegisterCallback, invoke, Bool.and_false,
        Bool.and_true, Bool.false_and, Bool.true_and, if_true, if_false,
        Bool.false_eq_true] at h
    all_goals try split at h
    all_goals first
      | (cases h; done)
      | (simp only [Outcome.returned.injEq] at h
         obtain ⟨hv, hg, hw⟩ := h
         subst hv hg hw
         refine ⟨rfl, rfl, ?_, ?_, _, rfl, rfl, ?_⟩
         · simp [hst]
         · simp only []; omega
         · intro p
           cases p <;> simp [SystemGroup.event, SystemRecord.handle, SystemClass.overrides] <;>
             omega)

/-- C19: when the constructor of the component raises `e`, `AddSystem` lets
`e` escape and leaves the group (store, three lists, started flag) and the
world (no phase method called, nothing allocated) exactly as they were. -/
theorem C19_constructor_error_leaves_group_unchanged (beh : Behaviour) (Sys : SystemClass)
    (args : Args) (g : SystemGroup) (w : World) (e : Error)
    (hc : beh.ctor Sys.type args = some e) :
    AddSystem beh Sys args g w = .threw e g w ∧
    (AddSystem beh Sys args g w).state? = some (g, w) ∧
    (AddSystem beh Sys args g w).error? = some e := by
  rw [AddSystem_ctor_threw beh Sys args g w e hc]
  exact ⟨rfl, rfl, rfl⟩

/-- C19, on an instance: the constructor of `B` raises 13 while the group
holds `A`, `B`, `D`. -/
theorem C19_constructor_error_leaves_group_unchanged_witness :
    failingCtor.ctor clsB.type 0 = some 13 ∧
    AddSystem failingCtor clsB 0 groupABD worldABD = .threw 13 groupABD worldABD :=
  ⟨rfl, (C19_constructor_error_leaves_group_unchanged failingCtor clsB 0 groupABD worldABD 13
    rfl).1⟩

theorem ctor_sys_perm (sys : List (TypeIndex × SystemPtr)) (acc : Multimap) :
    List.Perm (sys.foldl (fun m s => Multimap.insert m s.1 ⟨s.2, none, none, none⟩) acc)
      (acc ++ sys.map (fun s => (s.1, (⟨s.2, none, none, none⟩ : SystemRecord)))) := by
  induction sys generalizing acc with
  | nil => simp
  | cons s rest ih =>
    simp only [List.foldl_cons, List.map_cons]
    refine (ih _).trans ?_
    refine (List.Perm.append_right _ (Multimap.insert_perm acc s.1 ⟨s.2, none, none, none⟩)).trans ?_
    simp only [List.cons_append]
    exact List.perm_middle.symm

/-- C17: the group built by `SystemGroup(sys...)` holds exactly the given
pointers in its store, each under the key given for it and with three
value-initialised handles; its three phase lists are empty; and each of
`Start()`, `Update()`, `Tick()` returns without calling any phase method. -/
theorem C17_pointer_constructor_registers_nothing (beh : Behaviour)
    (sys : List (TypeIndex × SystemPtr)) (w : World) (p : Phase) :
    List.Perm (ctor_sys sys).systems
      (sys.map (fun s => (s.1, (⟨s.2, none, none, none⟩ : SystemRecord)))) ∧
    (ctor_sys sys).OnStart = [] ∧ (ctor_sys sys).OnUpdate = [] ∧ (ctor_sys sys).OnTick = [] ∧
    (∀ e ∈ (ctor_sys sys).systems, ∀ q, e.2.valid (ctor_sys sys) q = false) ∧
    ∃ g1, callPhase beh p (ctor_sys sys) w = .returned () g1 w ∧
      g1.systems = (ctor_sys sys).systems ∧ ∀ q, g1.event q = [] := by
  have hperm := ctor_sys_perm sys []
  simp only [List.nil_append] at hperm
  refine ⟨hperm, rfl, rfl, rfl, ?_, ?_⟩
  · intro e he q
    obtain ⟨s, _, hs⟩ := List.mem_map.1 (hperm.mem_iff.1 he)
    rw [← hs]
    cases q <;> rfl
  · cases p
    · exact ⟨{ ctor_sys sys with started := true }, rfl, rfl, fun q => by cases q <;> rfl⟩
    · exact ⟨ctor_sys sys, rfl, rfl, fun q => by cases q <;> rfl⟩
    · exact ⟨ctor_sys sys, rfl, rfl, fun q => by cases q <;> rfl⟩

theorem phase_quiet (beh : Behaviour) (hq : ∀ tr cb, beh.call tr cb = none)
    (event : CallbackList) (g : SystemGroup) (w : World) :
    phase beh event g w =
      .returned () g { w with trace := w.trace ++ event.map Node.value } := by
  simp only [phase, Call_quiet beh hq]

/-- C15: when no callback raises, `Update()` and `Tick()` return with the
group unchanged and `Start()` returns with only the started flag set; two
consecutive calls of the same phase call the same callbacks in the same
order, those of the phase list. -/
theorem C15_phase_calls_leave_group_unchanged (beh : Behaviour)
    (hq : ∀ tr cb, beh.call tr cb = none) (g : SystemGroup) (w : World) (p : Phase) :
    (∃ w1, Update beh g w = .returned () g w1) ∧
    (∃ w1, Tick beh g w = .returned () g w1) ∧
    (∃ w1, Start beh g w = .returned () { g with started := true } w1) ∧
    ∃ g1 w1 g2 w2, callPhase beh p g w = .returned () g1 w1 ∧
      callPhase beh p g1 w1 = .returned () g2 w2 ∧
      g1.systems = g.systems ∧ (∀ q, g1.event q = g.event q) ∧ g2 = g1 ∧
      w1.trace = w.trace ++ (g.event p).map Node.value ∧
      w2.trace = w1.trace ++ (g.event p).map Node.value := by
  refine ⟨⟨_, phase_quiet beh hq g.OnUpdate g w⟩, ⟨_, phase_quiet beh hq g.OnTick g w⟩,
    ⟨_, phase_quiet beh hq g.OnStart { g with started := true } w⟩, ?_⟩
  cases p
  · exact ⟨{ g with started := true }, _, { g with started := true }, _,
      phase_quiet beh hq g.OnStart { g with started := true } w,
      phase_quiet beh hq g.OnStart { g with started := true } _,
      rfl, fun q => by cases q <;> rfl, rfl, rfl, rfl⟩
  · exact ⟨g, _, g, _, phase_quiet beh hq g.OnUpdate g w, phase_quiet beh hq g.OnUpdate g _,
      rfl, fun q => rfl, rfl, rfl, rfl⟩
  · exact ⟨g, _, g, _, phase_quiet beh hq g.OnTick g w, phase_quiet beh hq g.OnTick g _,
      rfl, fun q => rfl, rfl, rfl, rfl⟩

/-- C15, on an instance: two `Update()` calls on the group holding `A`, `B`,
`D` call `A.Update`, `B.Update`, `D.Update` and then the same three again. -/
theorem C15_phase_calls_leave_group_unchanged_witness :
    (∀ tr cb, quiet.call tr cb = none) ∧
    ∃ g1 w1 g2 w2, callPhase quiet .Update groupABD worldABD = .returned () g1 w1 ∧
      callPhase quiet .Update g1 w1 = .returned () g2 w2 ∧ g1 = groupABD ∧ g2 = groupABD ∧
      w2.trace = [⟨100, .overriding 7 .Update⟩, ⟨102, .overriding 5 .Update⟩,
        ⟨105, .overriding 9 .Update⟩, ⟨100, .overriding 7 .Update⟩,
        ⟨102, .overriding 5 .Update⟩, ⟨105, .overriding 9 .Update⟩] := by
  refine ⟨fun _ _ => rfl, ?_⟩
  obtain ⟨⟨_, hu⟩, _, _, g1, w1, g2, w2, h1, h2, _, _, h5, h6, h7⟩ :=
    C15_phase_calls_leave_group_unchanged quiet (fun _ _ => rfl) groupABD worldABD .Update
  have hg1 : g1 = groupABD := by
    have := hu.symm.trans h1
    simp only [Outcome.returned.injEq, true_and] at this
    exact this.1.symm
  refine ⟨g1, w1, g2, w2, h1, h2, hg1, h5.trans hg1, ?_⟩
  rw [h7, h6]
  decide

/-! ## Callbacks that are in no list -/

theorem step_never (beh : Behaviour) (cb : Callback) (op : Op) (g g1 : SystemGroup)
    (w w1 : World)
    (hJ : cb.system < w.next ∧ ∀ p, cb ∉ (g.event p).map Node.value)
    (h : op.apply beh g w = some (g1, w1)) :
    (cb.system < w1.next ∧ ∀ p, cb ∉ (g1.event p).map Node.value) ∧
    ∃ ext, w1.trace = w.trace ++ ext ∧ cb ∉ ext := by
  obtain ⟨hJ1, hJ2⟩ := hJ
  have hphase : ∀ (q : Phase) (g0 : SystemGroup), (∀ p, g0.event p = g.event p) →
      (phase beh (g.event q) g0 w).state? = some (g1, w1) →
      (cb.system < w1.next ∧ ∀ p, cb ∉ (g1.event p).map Node.value) ∧
      ∃ ext, w1.trace = w.trace ++ ext ∧ cb ∉ ext := by
    intro q g0 hg0 hq
    obtain ⟨w2, a1, a2⟩ := phase_spec beh (g.event q) g0 w
    obtain ⟨b1, k, b2⟩ := phase_trace beh (g.event q) g0 w g1 w1 hq
    rw [a1] at hq
    simp only [Option.some.injEq, Prod.mk.injEq] at hq
    subst b1
    refine ⟨⟨by rw [← hq.2, a2]; exact hJ1, fun p => by rw [hg0 p]; exact hJ2 p⟩, _, b2, ?_⟩
    exact fun hm => hJ2 q ((List.Sublist.map _ (List.take_sublist _ _)).subset hm)
  cases op with
  | Start => exact hphase .Start { g with started := true } (fun p => by cases p <;> rfl) h
  | Update => exact hphase .Update g (fun _ => rfl) h
  | Tick => exact hphase .Tick g (fun _ => rfl) h
  | GetSystems type =>
    simp only [Op.apply, Option.some.injEq, Prod.mk.injEq] at h
    obtain ⟨hg, hw⟩ := h
    subst hg hw
    exact ⟨⟨hJ1, hJ2⟩, [], by simp, by simp⟩
  | RemoveSystems type =>
    obtain ⟨a1, _, _, a4⟩ := RemoveSystems_spec type g g1 w w1 h
    subst a1
    exact ⟨⟨hJ1, fun p hm => hJ2 p ((List.Sublist.map _ (a4 p)).subset hm)⟩, [], by simp,
      by simp⟩
  | RemoveSystem it =>
    obtain ⟨a1, _, _, a4⟩ := RemoveSystem_spec it g g1 w w1 h
    subst a1
    exact ⟨⟨hJ1, fun p hm => hJ2 p ((List.Sublist.map _ (a4 p)).subset hm)⟩, [], by simp,
      by simp⟩
  | AddSystem Sys args =>
    simp only [Op.apply] at h
    cases hc : beh.ctor Sys.type args with
    | some e =>
      rw [AddSystem_ctor_threw beh Sys args g w e hc] at h
      simp only [Outcome.state?, Option.some.injEq, Prod.mk.injEq] at h
      obtain ⟨hg, hw⟩ := h
      subst hg hw
      exact ⟨⟨hJ1, hJ2⟩, [], by simp, by simp⟩
    | none =>
      obtain ⟨g2, w2, h1, _, h3, h4, _, h6⟩ := AddSystem_spec beh Sys args g w hc
      rw [h1] at h
      simp only [Option.some.injEq, Prod.mk.injEq] at h
      obtain ⟨hg, hw⟩ := h
      subst hg hw
      have hne : ∀ f, cb ≠ ⟨w.next, f⟩ := by
        intro f hcb
        rw [hcb] at hJ1
        exact Nat.lt_irrefl _ hJ1
      refine ⟨⟨Nat.lt_trans hJ1 h3, ?_⟩, _, h4, ?_⟩
      · intro p hm
        obtain ⟨extra, he, hx⟩ := h6 p
        rw [he, List.map_append] at hm
        rcases List.mem_append.1 hm with hm | hm
        · exact hJ2 p hm
        · obtain ⟨n, hn, hnv⟩ := List.mem_map.1 hm
          rw [hx n hn] at hnv
          exact hne _ hnv.symm
      · split
        · intro hm
          exact hne _ (List.mem_singleton.1 hm)
        · simp

theorem run_never (beh : Behaviour) (cb : Callback) (ops : List Op) (g g1 : SystemGroup)
    (w w1 : World)
    (hJ : cb.system < w.next ∧ ∀ p, cb ∉ (g.event p).map Node.value)
    (h : run beh ops g w = some (g1, w1)) :
    ∃ ext, w1.trace = w.trace ++ ext ∧ cb ∉ ext := by
  induction ops generalizing g w with
  | nil =>
    simp only [run, Option.some.injEq, Prod.mk.injEq] at h
    exact ⟨[], by simp [h.2], by simp⟩
  | cons op ops ih =>
    simp only [run] at h
    cases ha : op.apply beh g w with
    | none => simp [ha] at h
    | some s =>
      obtain ⟨g2, w2⟩ := s
      simp only [ha] at h
      obtain ⟨hJ2, e1, he1, hn1⟩ := step_never beh cb op g g2 w w2 hJ ha
      obtain ⟨e2, he2, hn2⟩ := ih g2 w2 hJ2 h
      refine ⟨e1 ++ e2, by rw [he2, he1, List.append_assoc], ?_⟩
      intro hm
      rcases List.mem_append.1 hm with hm | hm
      · exact hn1 hm
      · exact hn2 hm

theorem AddSystem_frame (beh : Behaviour) (Sys : SystemClass) (args : Args)
    (g g1 : SystemGroup) (w w1 : World)
    (h : (AddSystem beh Sys args g w).state? = some (g1, w1)) :
    ∀ p, g1.event p = g.event p ∨
      (Sys.overrides p = true ∧ ∃ a, g1.event p = g.event p ++ [⟨a, ⟨w.next, Sys.slot p⟩⟩]) := by
  cases hc : beh.ctor Sys.type args with
  | some e =>
    rw [AddSystem_ctor_threw beh Sys args g w e hc] at h
    simp only [Outcome.state?, Option.some.injEq, Prod.mk.injEq] at h
    intro p
    rw [← h.1]
    exact Or.inl rfl
  | none =>
    simp only [AddSystem, hc, GetVTable, slot_ne_base] at h
    rcases Sys with ⟨ty, s, u, t⟩
    cases hst : g.started <;> cases s <;> cases u <;> cases t <;>
      simp only [hst, SystemClass.overrides, RegisterCallback, invoke, Bool.and_false,
        Bool.and_true, Bool.false_and, Bool.true_and, if_true, if_false,
        Bool.false_eq_true] at h
    all_goals try split at h
    all_goals
      simp only [Outcome.state?, Option.some.injEq, Prod.mk.injEq] at h
      obtain ⟨hg, _⟩ := h
      subst hg
      intro p
      cases p <;> simp [SystemGroup.event, SystemClass.overrides]

/-- C14 as stated fails: the group is started and the catch-up `Start` of `B`
(overrides `Start` and `Update`) raises 42. `AddSystem` then leaves `B` in the
store and in `OnStart`, but `OnUpdate` has got no node for `B`, and a later
`Update()` calls nothing. -/
theorem C14_counterexample_raising_catch_up :
    clsB.overrides .Update = true ∧
    AddSystem failingStart clsB 0 (added true) world0 =
      .threw 42 ⟨true, [⟨101, ⟨100, .overriding 5 .Start⟩⟩], [], [],
        [(5, ⟨100, some 101, none, none⟩)]⟩ ⟨102, [⟨100, .overriding 5 .Start⟩]⟩ ∧
    (¬ ∃ a, ([] : CallbackList) = (added true).OnUpdate ++ [⟨a, ⟨100, clsB.slot .Update⟩⟩]) ∧
    Update failingStart ⟨true, [⟨101, ⟨100, .overriding 5 .Start⟩⟩], [], [],
        [(5, ⟨100, some 101, none, none⟩)]⟩ ⟨102, [⟨100, .overriding 5 .Start⟩]⟩ =
      .returned () ⟨true, [⟨101, ⟨100, .overriding 5 .Start⟩⟩], [], [],
        [(5, ⟨100, some 101, none, none⟩)]⟩ ⟨102, [⟨100, .overriding 5 .Start⟩]⟩ := by
  refine ⟨by decide, by decide, ?_, by decide⟩
  rintro ⟨a, ha⟩
  simp [added] at ha

/-- C14, amended: whichever way `AddSystem` ends, the nodes that were in the
three lists are still there, in the same order, and each list is either
unchanged or has got one new node at its tail, holding the new component and
its implementation of the phase, and this only for a phase the class
overrides. When `AddSystem` returns, each list of a phase the class overrides
has got that node and the lists of the other phases are unchanged; a later
call of a phase then walks the old entries first and the new one last
(`invoked p [(v, Sys)]` is the call of `p` on the new component when its class
overrides `p`, and nothing otherwise). -/
theorem C14_AddSystem_appends_at_tail (beh : Behaviour) (Sys : SystemClass) (args : Args)
    (g g1 : SystemGroup) (w w1 : World)
    (hstate : (AddSystem beh Sys args g w).state? = some (g1, w1)) :
    (∀ p, g1.event p = g.event p ∨
      (Sys.overrides p = true ∧
        ∃ a, g1.event p = g.event p ++ [⟨a, ⟨w.next, Sys.slot p⟩⟩])) ∧
    ∀ v, AddSystem beh Sys args g w = .returned v g1 w1 →
      v = w.next ∧
      (∀ p, Sys.overrides p = true →
        ∃ a, g1.event p = g.event p ++ [⟨a, ⟨v, Sys.slot p⟩⟩]) ∧
      (∀ p, Sys.overrides p = false → g1.event p = g.event p) ∧
      (∀ p g2 w2, (callPhase beh p g1 w1).state? = some (g2, w2) →
        ∃ k, w2.trace = w1.trace ++
          ((g.event p).map Node.value ++ invoked p [(v, Sys)]).take k) ∧
      ((∀ tr cb, beh.call tr cb = none) → ∀ p, ∃ g2 w2,
        callPhase beh p g1 w1 = .returned () g2 w2 ∧
        w2.trace = w1.trace ++ ((g.event p).map Node.value ++ invoked p [(v, Sys)])) := by
  refine ⟨AddSystem_frame beh Sys args g g1 w w1 hstate, ?_⟩
  intro v hret
  obtain ⟨hv, _, _, _, r, _, _, hp⟩ := AddSystem_returned beh Sys args g g1 w w1 v hret
  subst hv
  have hlist : ∀ p, (g1.event p).map Node.value =
      (g.event p).map Node.value ++ invoked p [(w.next, Sys)] := by
    intro p
    cases ho : Sys.overrides p with
    | true =>
      obtain ⟨a, _, _, _, ha⟩ := (hp p).1 ho
      rw [ha]; simp [invoked, ho]
    | false => rw [((hp p).2 ho).2]; simp [invoked, ho]
  refine ⟨rfl, ?_, fun p ho => ((hp p).2 ho).2, ?_, ?_⟩
  · intro p ho
    obtain ⟨a, _, _, _, ha⟩ := (hp p).1 ho
    exact ⟨a, ha⟩
  · intro p g2 w2 h2
    obtain ⟨g0, h0, _, hev, _, _, _⟩ := callPhase_eq beh p g1 w1
    rw [h0] at h2
    obtain ⟨_, k, hk⟩ := phase_trace beh (g1.event p) g0 w1 g2 w2 h2
    refine ⟨k, ?_⟩
    rw [hk, ← hlist p, List.map_take]
  · intro hq p
    obtain ⟨g2, h2⟩ := callPhase_quiet beh hq p g1 w1
    exact ⟨g2, _, h2, by rw [← hlist p]⟩

/-- C14 amended, on an instance: `C` (overrides `Start` only) is added to the
group holding `A`, `B`, `D`: `OnStart` gets one node at its tail, `OnUpdate`
stays. -/
theorem C14_AddSystem_appends_at_tail_witness :
    (AddSystem quiet clsC 0 groupABD worldABD).state? = some
      ({ groupABD with
          OnStart := groupABD.OnStart ++ [⟨110, ⟨109, .overriding 3 .Start⟩⟩],
          systems := Multimap.insert groupABD.systems 3 ⟨109, some 110, none, none⟩ },
        { worldABD with next := 111 }) ∧
    ∃ a, ({ groupABD with
        OnStart := groupABD.OnStart ++ [⟨110, ⟨109, .overriding 3 .Start⟩⟩],
        systems := Multimap.insert groupABD.systems 3 ⟨109, some 110, none, none⟩ } :
          SystemGroup).event .Start =
      groupABD.event .Start ++ [⟨a, ⟨109, clsC.slot .Start⟩⟩] := by
  have h : AddSystem quiet clsC 0 groupABD worldABD = .returned 109
      { groupABD with
        OnStart := groupABD.OnStart ++ [⟨110, ⟨109, .overriding 3 .Start⟩⟩],
        systems := Multimap.insert groupABD.systems 3 ⟨109, some 110, none, none⟩ }
      { worldABD with next := 111 } := by decide
  have hs : (AddSystem quiet clsC 0 groupABD worldABD).state? = some
      ({ groupABD with
          OnStart := groupABD.OnStart ++ [⟨110, ⟨109, .overriding 3 .Start⟩⟩],
          systems := Multimap.insert groupABD.systems 3 ⟨109, some 110, none, none⟩ },
        { worldABD with next := 111 }) := by rw [h]; rfl
  exact ⟨hs, ((C14_AddSystem_appends_at_tail quiet clsC 0 groupABD _ worldABD _ hs).2 109
    h).2.1 .Start rfl⟩

/-- C18: the group is started, the class overrides `Start`, its constructor
returns and the catch-up `Start` raises `e`. Then `AddSystem` lets `e` escape;
the component is in the store, with a handle into `OnStart` only, and in
`OnStart`; `OnUpdate` and `OnTick` are as before, whatever the class
overrides; and over any later sequence of operations on a reachable group
neither its `Update` nor its `Tick` is ever called. -/
theorem C18_catch_up_error_skips_update_and_tick (beh : Behaviour) (g : SystemGroup)
    (w : World) (hr : Reachable beh g w) (hs : g.started = true) (Sys : SystemClass)
    (args : Args) (ho : Sys.overrides .Start = true) (hc : beh.ctor Sys.type args = none)
    (e : Error) (he : beh.call w.trace ⟨w.next, Sys.slot .Start⟩ = some e) (ops : List Op) :
    ∃ g1 w1, AddSystem beh Sys args g w = .threw e g1 w1 ∧
      g1.systems = Multimap.insert g.systems Sys.type ⟨w.next, some (w.next + 1), none, none⟩ ∧
      g1.OnStart = g.OnStart ++ [⟨w.next + 1, ⟨w.next, Sys.slot .Start⟩⟩] ∧
      g1.OnUpdate = g.OnUpdate ∧ g1.OnTick = g.OnTick ∧ g1.started = true ∧
      w1.trace = w.trace ++ [⟨w.next, Sys.slot .Start⟩] ∧
      ∀ g2 w2, run beh ops g1 w1 = some (g2, w2) →
        ∃ ext, w2.trace = w1.trace ++ ext ∧
          (⟨w.next, Sys.slot .Update⟩ : Callback) ∉ ext ∧
          (⟨w.next, Sys.slot .Tick⟩ : Callback) ∉ ext := by
  have hI := hr.inv
  have hadd : AddSystem beh Sys args g w = .threw e
      { g with OnStart := g.OnStart ++ [⟨w.next + 1, ⟨w.next, Sys.slot .Start⟩⟩],
               systems := Multimap.insert g.systems Sys.type
                 ⟨w.next, some (w.next + 1), none, none⟩ }
      { next := w.next + 1 + 1, trace := w.trace ++ [⟨w.next, Sys.slot .Start⟩] } := by
    simp only [AddSystem, hc, GetVTable, slot_ne_base, ho, hs, RegisterCallback, invoke, he,
      Bool.and_self, if_true]
  refine ⟨_, _, hadd, rfl, rfl, rfl, rfl, hs, rfl, ?_⟩
  intro g2 w2 hrun
  have hfresh : ∀ (q : Phase), q ≠ Phase.Start → ∀ p,
      (⟨w.next, Sys.slot q⟩ : Callback) ∉
        (({ g with OnStart := g.OnStart ++ [⟨w.next + 1, ⟨w.next, Sys.slot .Start⟩⟩],
                   systems := Multimap.insert g.systems Sys.type
                     ⟨w.next, some (w.next + 1), none, none⟩ } : SystemGroup).event p).map
          Node.value := by
    intro q hq p hm
    have hold : ∀ p, (⟨w.next, Sys.slot q⟩ : Callback) ∉ (g.event p).map Node.value := by
      intro p hm
      obtain ⟨n, hn, hnv⟩ := List.mem_map.1 hm
      have hlt := hI.listed p n hn
      rw [hnv] at hlt
      exact Nat.lt_irrefl _ hlt
    cases p
    · simp only [SystemGroup.event, List.map_append, List.mem_append, List.map_cons,
        List.map_nil, List.mem_singleton] at hm
      rcases hm with hm | hm
      · exact hold .Start hm
      · exact hq (slot_phase_inj Sys q .Start (congrArg Callback.func hm))
    · exact hold .Update hm
    · exact hold .Tick hm
  obtain ⟨e1, h1, n1⟩ := run_never beh ⟨w.next, Sys.slot .Update⟩ ops _ g2 _ w2
    ⟨Nat.lt_succ_of_lt (Nat.lt_succ_self _), hfresh .Update (by decide)⟩ hrun
  obtain ⟨e2, h2, n2⟩ := run_never beh ⟨w.next, Sys.slot .Tick⟩ ops _ g2 _ w2
    ⟨Nat.lt_succ_of_lt (Nat.lt_succ_self _), hfresh .Tick (by decide)⟩ hrun
  have hee : e1 = e2 := List.append_cancel_left (h1.symm.trans h2)
  exact ⟨e1, h1, n1, hee ▸ n2⟩

/-- C18, on an instance: `B` (overrides `Start` and `Update`) is added to a
started group and `B.Start` raises 42; a later `Update()` and `Tick()` call
nothing. -/
theorem C18_catch_up_error_skips_update_and_tick_witness :
    Reachable failingStart { ctor with started := true } world0 ∧
    clsB.overrides .Start = true ∧ clsB.overrides .Update = true ∧
    failingStart.call world0.trace ⟨world0.next, clsB.slot .Start⟩ = some 42 ∧
    ∃ g1 w1, AddSystem failingStart clsB 0 { ctor with started := true } world0 =
        .threw 42 g1 w1 ∧
      g1.systems = [(5, ⟨100, some 101, none, none⟩)] ∧
      g1.OnStart = [⟨101, ⟨100, .overriding 5 .Start⟩⟩] ∧ g1.OnUpdate = [] ∧ g1.OnTick = [] ∧
      (run failingStart [.Update, .Tick] g1 w1).map (fun s => s.2.trace) =
        some [⟨100, .overriding 5 .Start⟩] := by
  have hr : Reachable failingStart { ctor with started := true } world0 :=
    Reachable.step Op.Start ctor world0 _ _ (Reachable.ctor world0) rfl
  refine ⟨hr, rfl, rfl, rfl, ?_⟩
  obtain ⟨g1, w1, h1, h2, h3, h4, h5, _, _, _⟩ :=
    C18_catch_up_error_skips_update_and_tick failingStart { ctor with started := true } world0
      hr rfl clsB 0 rfl rfl 42 rfl [.Update, .Tick]
  have hd : AddSystem failingStart clsB 0 { ctor with started := true } world0 =
      .threw 42 ⟨true, [⟨101, ⟨100, .overriding 5 .Start⟩⟩], [], [],
        [(5, ⟨100, some 101, none, none⟩)]⟩ ⟨102, [⟨100, .overriding 5 .Start⟩]⟩ := by decide
  have heq := h1.symm.trans hd
  simp only [Outcome.threw.injEq, true_and] at heq
  obtain ⟨hg, hw⟩ := heq
  subst hg hw
  exact ⟨_, _, hd, rfl, rfl, rfl, rfl, by decide⟩

/-! ## Adding to the store -/

theorem Multimap.sublist_insert (m : Multimap) (k : TypeIndex) (r : SystemRecord) :
    m.Sublist (Multimap.insert m k r) := by
  unfold Multimap.insert
  conv_lhs => rw [← List.take_append_drop (Multimap.upper_bound m k) m]
  exact List.Sublist.append (List.Sublist.refl _) (List.sublist_cons_self _ _)

theorem Multimap.filter_insert_other (m : Multimap) (k k2 : TypeIndex) (r : SystemRecord)
    (hk : k2 ≠ k) :
    (Multimap.insert m k r).filter (fun e => e.1 == k2) = m.filter (fun e => e.1 == k2) := by
  unfold Multimap.insert
  have hne : ¬ k = k2 := fun h => hk h.symm
  simp only [List.filter_append, List.filter_cons, beq_iff_eq, hne, if_false]
  rw [← List.filter_append, List.take_append_drop]

theorem Multimap.filter_insert_same (m : Multimap) (k : TypeIndex) (r : SystemRecord)
    (hs : m.Pairwise (fun a b => a.1 ≤ b.1)) :
    (Multimap.insert m k r).filter (fun e => e.1 == k) =
      m.filter (fun e => e.1 == k) ++ [(k, r)] := by
  induction m with
  | nil => simp [Multimap.insert, Multimap.upper_bound]
  | cons e m ih =>
    rw [Multimap.insert_cons]
    rw [List.pairwise_cons] at hs
    by_cases h : e.1 ≤ k
    · rw [if_pos h]
      by_cases he : e.1 = k
      · simp [List.filter_cons, he, ih hs.2]
      · simp [List.filter_cons, he, ih hs.2]
    · rw [if_neg h]
      have hlt : k < e.1 := Nat.lt_of_not_le h
      have hnil := Multimap.filter_eq_nil_of_lt m k
        (fun b hb => Nat.lt_of_lt_of_le hlt (hs.1 b hb))
      have hne : ¬ e.1 = k := Nat.ne_of_gt hlt
      simp [List.filter_cons, hne, hnil]

theorem addAll_store (beh : Behaviour) (calls : List (SystemClass × Args)) (g : SystemGroup)
    (w : World) (hs : g.started = false) (hsorted : g.systems.Pairwise (fun a b => a.1 ≤ b.1)) :
    (addAll beh calls g w).2.1.systems.Pairwise (fun a b => a.1 ≤ b.1) ∧
    ∀ T, ((addAll beh calls g w).2.1.systems.filter (fun e => e.1 == T)).map
        (fun e => e.2.system) =
      (g.systems.filter (fun e => e.1 == T)).map (fun e => e.2.system) ++
        ((addAll beh calls g w).1.filter (fun a => a.2.type == T)).map Prod.fst := by
  induction calls generalizing g w with
  | nil => simp [addAll, hsorted]
  | cons c rest ih =>
    cases hc : beh.ctor c.1.type c.2 with
    | some e =>
      have hadd : addAll beh (c :: rest) g w = addAll beh rest g w := by
        simp [addAll, AddSystem_ctor_threw beh c.1 c.2 g w e hc]
      rw [hadd]
      exact ih g w hs hsorted
    | none =>
      obtain ⟨g1, w1, hret, hs1, _, _, _⟩ := AddSystem_not_started beh c.1 c.2 g w hc hs
      obtain ⟨_, _, _, _, r, hr, hsys, _⟩ := AddSystem_returned beh c.1 c.2 g g1 w w1 _ hret
      have hadd : addAll beh (c :: rest) g w =
          ((w.next, c.1) :: (addAll beh rest g1 w1).1, (addAll beh rest g1 w1).2) := by
        simp [addAll, hret]
      rw [hadd]
      dsimp only
      have hsorted1 : g1.systems.Pairwise (fun a b => a.1 ≤ b.1) := by
        rw [hsys]; exact Multimap.insert_sorted _ _ _ hsorted
      obtain ⟨h1, h2⟩ := ih g1 w1 hs1 hsorted1
      refine ⟨h1, ?_⟩
      intro T
      rw [h2 T, hsys]
      by_cases hT : c.1.type = T
      · subst hT
        rw [Multimap.filter_insert_same _ _ _ hsorted]
        simp [List.filter_cons, hr]
      · rw [Multimap.filter_insert_other _ _ _ _ (fun h => hT h.symm)]
        simp [List.filter_cons, hT]

theorem addAll_reachable (beh : Behaviour) (calls : List (SystemClass × Args))
    (g : SystemGroup) (w : World) (hr : Reachable beh g w) :
    Reachable beh (addAll beh calls g w).2.1 (addAll beh calls g w).2.2 := by
  induction calls generalizing g w with
  | nil => exact hr
  | cons c rest ih =>
    simp only [addAll]
    cases hadd : AddSystem beh c.1 c.2 g w with
    | returned v g1 w1 =>
      exact ih g1 w1 (Reachable.step (.AddSystem c.1 c.2) g w g1 w1 hr
        (by simp only [Op.apply, hadd, Outcome.state?]))
    | threw e g1 w1 =>
      exact ih g1 w1 (Reachable.step (.AddSystem c.1 c.2) g w g1 w1 hr
        (by simp only [Op.apply, hadd, Outcome.state?]))
    | undefined => exact hr

/-- C16: on a reachable group, `AddSystem<T>` whose constructor returns puts
exactly one new entry, keyed by `T` and holding the new component, into the
store and keeps every entry that was there, in the same order; `GetSystems(T)`
yields what it yielded before followed by the new entry, and for every other
key what it yielded before. Hence, after any sequence of `AddSystem` calls on
a default-constructed group, `GetSystems(T)` yields the components of type `T`
in the order in which they were added. -/
theorem C16_AddSystem_adds_one_entry_after_equal_keys (beh : Behaviour) (g : SystemGroup)
    (w : World) (hr : Reachable beh g w) (Sys : SystemClass) (args : Args)
    (hc : beh.ctor Sys.type args = none) :
    (∃ g1 w1 r, (AddSystem beh Sys args g w).state? = some (g1, w1) ∧
      r.system = w.next ∧ (∀ e ∈ g.systems, e.2.system ≠ w.next) ∧
      List.Perm g1.systems ((Sys.type, r) :: g.systems) ∧ g.systems.Sublist g1.systems ∧
      (GetSystems g1 Sys.type).entries g1.systems =
        (GetSystems g Sys.type).entries g.systems ++ [(Sys.type, r)] ∧
      ((GetSystems g1 Sys.type).entries g1.systems).length =
        ((GetSystems g Sys.type).entries g.systems).length + 1 ∧
      ∀ T, T ≠ Sys.type →
        (GetSystems g1 T).entries g1.systems = (GetSystems g T).entries g.systems) ∧
    ∀ (calls : List (SystemClass × Args)) (w0 : World) (T : TypeIndex),
      ((GetSystems (addAll beh calls ctor w0).2.1 T).entries
          (addAll beh calls ctor w0).2.1.systems).map (fun e => e.2.system) =
        ((addAll beh calls ctor w0).1.filter (fun a => a.2.type == T)).map Prod.fst := by
  constructor
  · have hI := hr.inv
    obtain ⟨g1, w1, h1, _, _, _, ⟨r, hrs, hsys⟩, _⟩ := AddSystem_spec beh Sys args g w hc
    have hsorted1 : g1.systems.Pairwise (fun a b => a.1 ≤ b.1) := by
      rw [hsys]; exact Multimap.insert_sorted _ _ _ hI.sorted
    have hsame : (GetSystems g1 Sys.type).entries g1.systems =
        (GetSystems g Sys.type).entries g.systems ++ [(Sys.type, r)] := by
      rw [GetSystems, GetSystems, Multimap.entries_equal_range _ _ hsorted1,
        Multimap.entries_equal_range _ _ hI.sorted, hsys,
        Multimap.filter_insert_same _ _ _ hI.sorted]
    refine ⟨g1, w1, r, h1, hrs, ?_, ?_, ?_, hsame, ?_, ?_⟩
    · intro e he heq
      have := hI.held e he
      rw [heq] at this
      exact Nat.lt_irrefl _ this
    · rw [hsys]; exact Multimap.insert_perm _ _ _
    · rw [hsys]; exact Multimap.sublist_insert _ _ _
    · rw [hsame]; simp
    · intro T hT
      rw [GetSystems, GetSystems, Multimap.entries_equal_range _ _ hsorted1,
        Multimap.entries_equal_range _ _ hI.sorted, hsys,
        Multimap.filter_insert_other _ _ _ _ hT]
  · intro calls w0 T
    have hreach := addAll_reachable beh calls ctor w0 (Reachable.ctor w0)
    obtain ⟨_, h2⟩ := addAll_store beh calls ctor w0 rfl List.Pairwise.nil
    rw [GetSystems, Multimap.entries_equal_range _ _ hreach.inv.sorted, h2 T]
    simp [ctor]

/-- C16, on an instance: a second component of class `A` is added to the
group holding `A`, `B`, `D`; `GetSystems(A)` yields the old one, then the new. -/
theorem C16_AddSystem_adds_one_entry_after_equal_keys_witness :
    Reachable quiet groupABD worldABD ∧ quiet.ctor clsA.type 0 = none ∧
    ∃ g1 w1, (AddSystem quiet clsA 0 groupABD worldABD).state? = some (g1, w1) ∧
      ((GetSystems groupABD clsA.type).entries groupABD.systems).map (fun e => e.2.system) =
        [100] ∧
      ((GetSystems g1 clsA.type).entries g1.systems).map (fun e => e.2.system) =
        [100, 109] := by
  have hr : Reachable quiet groupABD worldABD :=
    addAll_reachable quiet [(clsA, 0), (clsB, 0), (clsD, 0)] ctor world0 (Reachable.ctor world0)
  refine ⟨hr, rfl, ?_⟩
  obtain ⟨⟨g1, w1, r, h1, h2, _, _, _, h6, _⟩, _⟩ :=
    C16_AddSystem_adds_one_entry_after_equal_keys quiet groupABD worldABD hr clsA 0 rfl
  refine ⟨g1, w1, h1, by decide, ?_⟩
  rw [h6, List.map_append]
  have h0 : ((GetSystems groupABD clsA.type).entries groupABD.systems).map
      (fun e => e.2.system) = [100] := by decide
  rw [h0]
  simp only [List.map_cons, List.map_nil, h2]
  rfl

/-! ## Store and lists stay linked -/

theorem eraseP_eq_filter (l : CallbackList) (a : Nat) (hd : (l.map Node.addr).Nodup) :
    l.eraseP (fun n => n.addr == a) = l.filter (fun n => n.addr != a) := by
  induction l with
  | nil => rfl
  | cons n l ih =>
    simp only [List.map_cons, List.nodup_cons] at hd
    by_cases h : n.addr = a
    · have hself : l.filter (fun n => n.addr != a) = l := by
        rw [List.filter_eq_self]
        intro m hm
        simp only [bne_iff_ne, ne_eq]
        intro hma
        exact hd.1 (List.mem_map.2 ⟨m, hm, hma.trans h.symm⟩)
      simp [List.eraseP_cons, List.filter_cons, h, hself]
    · simp [List.eraseP_cons, List.filter_cons, h, ih hd.2]

theorem CallbackList.erase_filter (l l1 : CallbackList) (it : ListIterator)
    (hd : (l.map Node.addr).Nodup) (h : CallbackList.erase l it = some l1) :
    ∃ a, it = some a ∧ l1 = l.filter (fun n => n.addr != a) := by
  cases it with
  | none => simp [CallbackList.erase] at h
  | some a =>
    simp only [CallbackList.erase] at h
    split at h
    · simp only [Option.some.injEq] at h
      exact ⟨a, rfl, by rw [← h, eraseP_eq_filter l a hd]⟩
    · cases h

theorem UnregisterCallbacks_filter (record : SystemRecord) (g g1 : SystemGroup)
    (hd : ∀ p, ((g.event p).map Node.addr).Nodup)
    (h : UnregisterCallbacks record g = some g1) :
    ∀ p, ∃ a, record.handle p = some a ∧
      g1.event p = (g.event p).filter (fun n => n.addr != a) := by
  simp only [UnregisterCallbacks] at h
  cases h1 : CallbackList.erase g.OnStart record.Start with
  | none => simp [h1] at h
  | some l1 =>
    cases h2 : CallbackList.erase g.OnUpdate record.Update with
    | none => simp [h1, h2] at h
    | some l2 =>
      cases h3 : CallbackList.erase g.OnTick record.Tick with
      | none => simp [h1, h2, h3] at h
      | some l3 =>
        simp only [h1, h2, h3, Option.some.injEq] at h
        subst h
        intro p
        cases p
        · exact CallbackList.erase_filter _ _ _ (hd .Start) h1
        · exact CallbackList.erase_filter _ _ _ (hd .Update) h2
        · exact CallbackList.erase_filter _ _ _ (hd .Tick) h3

theorem unregisterEach_filter (es : List (TypeIndex × SystemRecord)) (g g1 : SystemGroup)
    (hd : ∀ p, ((g.event p).map Node.addr).Nodup)
    (h : unregisterEach es g = some g1) :
    ∀ p n, n ∈ g1.event p ↔ n ∈ g.event p ∧ ∀ e ∈ es, e.2.handle p ≠ some n.addr := by
  induction es generalizing g with
  | nil =>
    simp only [unregisterEach, Option.some.injEq] at h
    subst h
    simp
  | cons e rest ih =>
    simp only [unregisterEach] at h
    cases h1 : UnregisterCallbacks e.2 g with
    | none => simp [h1] at h
    | some g2 =>
      simp only [h1] at h
      have hf := UnregisterCallbacks_filter e.2 g g2 hd h1
      have hd2 : ∀ p, ((g2.event p).map Node.addr).Nodup := by
        intro p
        obtain ⟨a, _, ha⟩ := hf p
        rw [ha]
        exact List.Nodup.sublist (List.Sublist.map _ (List.filter_sublist _)) (hd p)
      intro p n
      rw [ih g2 hd2 h p n]
      obtain ⟨a, ha, hev⟩ := hf p
      rw [hev, List.mem_filter]
      simp only [bne_iff_ne, ne_eq, List.mem_cons, forall_eq_or_imp, ha, Option.some.injEq]
      constructor
      · rintro ⟨⟨h1, h2⟩, h3⟩
        exact ⟨h1, fun h => h2 h.symm, h3⟩
      · rintro ⟨h1, h2, h3⟩
        exact ⟨⟨h1, fun h => h2 h.symm⟩, h3⟩

theorem Linked.of_removal {g g1 : SystemGroup} {w : World} (hI : Inv g w) (hL : Linked g w)
    (es : List (TypeIndex × SystemRecord)) (hes : ∀ e ∈ es, e ∈ g.systems)
    (hsys : ∀ e, e ∈ g1.systems ↔ e ∈ g.systems ∧ e ∉ es)
    (hsub : ∀ p, (g1.event p).Sublist (g.event p))
    (hev : ∀ p n, n ∈ g1.event p ↔ n ∈ g.event p ∧ ∀ e ∈ es, e.2.handle p ≠ some n.addr) :
    Linked g1 w where
  addr_nodup := fun p => List.Nodup.sublist (List.Sublist.map _ (hsub p)) (hL.addr_nodup p)
  addr_lt := fun p n hn => hL.addr_lt p n ((hsub p).subset hn)
  sys_nodup := fun p => List.Nodup.sublist (List.Sublist.map _ (hsub p)) (hL.sys_nodup p)
  owner := by
    intro p n hn
    obtain ⟨hn1, hn2⟩ := (hev p n).1 hn
    obtain ⟨e, he, hes1, heh⟩ := hL.owner p n hn1
    exact ⟨e, (hsys e).2 ⟨he, fun hmem => hn2 e hmem heh⟩, hes1, heh⟩
  target := by
    intro p e he a ha
    obtain ⟨he1, he2⟩ := (hsys e).1 he
    obtain ⟨n, hn, hna, hns⟩ := hL.target p e he1 a ha
    refine ⟨n, (hev p n).2 ⟨hn, ?_⟩, hna, hns⟩
    intro e2 he2m hh
    obtain ⟨n2, hn2, hn2a, hn2s⟩ := hL.target p e2 (hes e2 he2m) n.addr hh
    have hnn : n2 = n := List.inj_on_of_nodup_map (hL.addr_nodup p) hn2 hn hn2a
    have hee : e2 = e := List.inj_on_of_nodup_map hI.nodup (hes e2 he2m) he1
      (by rw [← hn2s, hnn, hns])
    exact he2 (hee ▸ he2m)

theorem Linked.congr {g g1 : SystemGroup} {w w1 : World} (hL : Linked g w)
    (hs : g1.systems = g.systems) (hev : ∀ p, g1.event p = g.event p)
    (hn : w.next ≤ w1.next) : Linked g1 w1 where
  addr_nodup := fun p => by rw [hev p]; exact hL.addr_nodup p
  addr_lt := fun p n h => by
    rw [hev p] at h
    exact Nat.lt_of_lt_of_le (hL.addr_lt p n h) hn
  sys_nodup := fun p => by rw [hev p]; exact hL.sys_nodup p
  owner := fun p n h => by
    rw [hev p] at h
    rw [hs]
    exact hL.owner p n h
  target := fun p e he a ha => by
    rw [hs] at he
    rw [hev p]
    exact hL.target p e he a ha

theorem Linked.after_add {beh : Behaviour} {Sys : SystemClass} {args : Args}
    {g g1 : SystemGroup} {w w1 : World} (hI : Inv g w) (hL : Linked g w)
    (h : (AddSystem beh Sys args g w).state? = some (g1, w1)) : Linked g1 w1 := by
  cases hc : beh.ctor Sys.type args with
  | some e =>
    rw [AddSystem_ctor_threw beh Sys args g w e hc] at h
    simp only [Outcome.state?, Option.some.injEq, Prod.mk.injEq] at h
    obtain ⟨hg, hw⟩ := h
    subst hg hw
    exact hL
  | none =>
    obtain ⟨g2, w2, h1, h3, r, hr, hsys, hp⟩ := AddSystem_links beh Sys args g w hc
    rw [h1] at h
    simp only [Option.some.injEq, Prod.mk.injEq] at h
    obtain ⟨hg, hw⟩ := h
    subst hg hw
    have hmem : ∀ e, e ∈ g2.systems ↔ e = (Sys.type, r) ∨ e ∈ g.systems := by
      intro e
      rw [hsys, (Multimap.insert_perm g.systems Sys.type r).mem_iff, List.mem_cons]
    refine ⟨?_, ?_, ?_, ?_, ?_⟩
    · intro p
      rcases hp p with ⟨a, _, ha1, _, hev⟩ | ⟨_, hev⟩
      · rw [hev, List.map_append, List.nodup_append]
        refine ⟨hL.addr_nodup p, List.nodup_singleton _, ?_⟩
        intro x hx hx2
        simp only [List.map_cons, List.map_nil, List.mem_singleton] at hx2
        obtain ⟨n, hn, hna⟩ := List.mem_map.1 hx
        have := hL.addr_lt p n hn
        omega
      · rw [hev]; exact hL.addr_nodup p
    · intro p n hn
      rcases hp p with ⟨a, _, _, ha2, hev⟩ | ⟨_, hev⟩
      · rw [hev] at hn
        rcases List.mem_append.1 hn with hn | hn
        · exact Nat.lt_trans (hL.addr_lt p n hn) h3
        · rw [List.mem_singleton.1 hn]; exact ha2
      · rw [hev] at hn
        exact Nat.lt_trans (hL.addr_lt p n hn) h3
    · intro p
      rcases hp p with ⟨a, _, _, _, hev⟩ | ⟨_, hev⟩
      · rw [hev, List.map_append, List.nodup_append]
        refine ⟨hL.sys_nodup p, List.nodup_singleton _, ?_⟩
        intro x hx hx2
        simp only [List.map_cons, List.map_nil, List.mem_singleton] at hx2
        obtain ⟨n, hn, hna⟩ := List.mem_map.1 hx
        have hlt := hI.listed p n hn
        rw [hna, hx2] at hlt
        exact Nat.lt_irrefl _ hlt
      · rw [hev]; exact hL.sys_nodup p
    · intro p n hn
      have hold : n ∈ g.event p →
          ∃ e ∈ g2.systems, e.2.system = n.value.system ∧ e.2.handle p = some n.addr := by
        intro hn
        obtain ⟨e, he, h1, h2⟩ := hL.owner p n hn
        exact ⟨e, (hmem e).2 (Or.inr he), h1, h2⟩
      rcases hp p with ⟨a, ha, _, _, hev⟩ | ⟨_, hev⟩
      · rw [hev] at hn
        rcases List.mem_append.1 hn with hn | hn
        · exact hold hn
        · rw [List.mem_singleton.1 hn]
          exact ⟨(Sys.type, r), (hmem _).2 (Or.inl rfl), hr, ha⟩
      · rw [hev] at hn
        exact hold hn
    · intro p e he a ha
      have hold : (∃ n ∈ g.event p, n.addr = a ∧ n.value.system = e.2.system) →
          ∃ n ∈ g2.event p, n.addr = a ∧ n.value.system = e.2.system := by
        rintro ⟨n, hn, h1, h2⟩
        rcases hp p with ⟨b, _, _, _, hev⟩ | ⟨_, hev⟩
        · exact ⟨n, by rw [hev]; exact List.mem_append_left _ hn, h1, h2⟩
        · exact ⟨n, by rw [hev]; exact hn, h1, h2⟩
      rcases (hmem e).1 he with rfl | he
      · rcases hp p with ⟨b, hb, _, _, hev⟩ | ⟨hnone, _⟩
        · simp only [hb, Option.some.injEq] at ha
          subst ha
          exact ⟨_, by rw [hev]; exact List.mem_append_right _ (List.mem_singleton.2 rfl),
            rfl, hr.symm⟩
        · simp only [hnone] at ha
          cases ha
      · exact hold (hL.target p e he a ha)

theorem Linked.after_op {beh : Behaviour} {op : Op} {g g1 : SystemGroup} {w w1 : World}
    (hI : Inv g w) (hL : Linked g w) (h : op.apply beh g w = some (g1, w1)) :
    Linked g1 w1 := by
  have hphase : ∀ (q : Phase) (g0 : SystemGroup), g0.systems = g.systems →
      (∀ p, g0.event p = g.event p) →
      (phase beh (g.event q) g0 w).state? = some (g1, w1) → Linked g1 w1 := by
    intro q g0 hs hev hq
    obtain ⟨w2, a1, a2⟩ := phase_spec beh (g.event q) g0 w
    rw [a1] at hq
    simp only [Option.some.injEq, Prod.mk.injEq] at hq
    obtain ⟨hg, hw⟩ := hq
    subst hg hw
    exact hL.congr hs hev (Nat.le_of_eq a2.symm)
  cases op with
  | AddSystem Sys args => exact hL.after_add hI h
  | GetSystems type =>
    simp only [Op.apply, Option.some.injEq, Prod.mk.injEq] at h
    obtain ⟨hg, hw⟩ := h
    subst hg hw
    exact hL
  | Start => exact hphase .Start { g with started := true } rfl (fun p => by cases p <;> rfl) h
  | Update => exact hphase .Update g rfl (fun _ => rfl) h
  | Tick => exact hphase .Tick g rfl (fun _ => rfl) h
  | RemoveSystems type =>
    obtain ⟨a1, _, a3, a4⟩ := RemoveSystems_spec type g g1 w w1 h
    subst a1
    simp only [Op.apply, RemoveSystems] at h
    cases h1 : unregisterEach ((GetSystems g type).entries g.systems) g with
    | none => simp [h1, Outcome.state?] at h
    | some g2 =>
      simp only [h1, Outcome.state?, Option.some.injEq, Prod.mk.injEq] at h
      have hf := unregisterEach_filter _ g g2 hL.addr_nodup h1
      have hes : (GetSystems g type).entries g.systems =
          g.systems.filter (fun e => e.1 == type) :=
        Multimap.entries_equal_range g.systems type hI.sorted
      rw [hes] at hf
      have hev : ∀ p, g1.event p = g2.event p := by
        intro p
        rw [← h.1]
        cases p <;> rfl
      refine hL.of_removal hI (g.systems.filter (fun e => e.1 == type))
        (fun e he => (List.mem_filter.1 he).1) ?_ a4 ?_
      · intro e
        rw [a3, Multimap.erase, List.mem_filter, List.mem_filter]
        simp only [bne_iff_ne, ne_eq, beq_iff_eq, not_and]
        constructor
        · rintro ⟨h1, h2⟩
          exact ⟨h1, fun _ => h2⟩
        · rintro ⟨h1, h2⟩
          exact ⟨h1, h2 h1⟩
      · intro p n
        rw [hev p]
        exact hf p n
  | RemoveSystem it =>
    obtain ⟨a1, _, a3, a4⟩ := RemoveSystem_spec it g g1 w w1 h
    subst a1
    simp only [Op.apply, RemoveSystem] at h
    cases h0 : g.systems[it]? with
    | none => simp [h0, Outcome.state?] at h
    | some e =>
      cases h1 : UnregisterCallbacks e.2 g with
      | none => simp [h0, h1, Outcome.state?] at h
      | some g2 =>
        simp only [h0, h1, Outcome.state?, Option.some.injEq, Prod.mk.injEq] at h
        have hf := UnregisterCallbacks_filter e.2 g g2 hL.addr_nodup h1
        have hev : ∀ p, g1.event p = g2.event p := by
          intro p
          rw [← h.1]
          cases p <;> rfl
        have hnd : g.systems.Nodup := List.Nodup.of_map _ hI.nodup
        have hlt : it < g.systems.length := (List.getElem?_eq_some.1 h0).1
        refine hL.of_removal hI [e] ?_ ?_ a4 ?_
        · intro x hx
          rw [List.mem_singleton.1 hx]
          exact List.getElem?_mem h0
        · intro x
          rw [a3, List.mem_eraseIdx_iff_getElem?, List.mem_singleton]
          constructor
          · rintro ⟨i, hi, hx⟩
            refine ⟨List.getElem?_mem hx, ?_⟩
            intro hxe
            rw [hxe, ← h0] at hx
            exact hi (List.getElem?_inj hlt hnd hx.symm).symm
          · rintro ⟨hx, hne⟩
            obtain ⟨i, hi⟩ := List.mem_iff_getElem?.1 hx
            refine ⟨i, ?_, hi⟩
            intro hii
            rw [hii, h0] at hi
            exact hne (Option.some.inj hi).symm
        · intro p n
          obtain ⟨a, ha, hfe⟩ := hf p
          rw [hev p, hfe, List.mem_filter]
          simp only [bne_iff_ne, ne_eq, List.mem_singleton, forall_eq, ha, Option.some.injEq]
          constructor
          · rintro ⟨h1, h2⟩
            exact ⟨h1, fun h => h2 h.symm⟩
          · rintro ⟨h1, h2⟩
            exact ⟨h1, fun h => h2 h.symm⟩

theorem Reachable.linked {beh : Behaviour} {g : SystemGroup} {w : World}
    (h : Reachable beh g w) : Linked g w := by
  induction h with
  | ctor w =>
    exact ⟨fun p => (by cases p <;> exact List.nodup_nil),
      fun p n hn => (by cases p <;> cases hn),
      fun p => (by cases p <;> exact List.nodup_nil),
      fun p n hn => (by cases p <;> cases hn), fun p e he => (by cases he)⟩
  | ctor_sys sys w hd hl =>
    refine ⟨fun p => (by cases p <;> exact List.nodup_nil),
      fun p n hn => (by cases p <;> cases hn),
      fun p => (by cases p <;> exact List.nodup_nil),
      fun p n hn => (by cases p <;> cases hn), ?_⟩
    intro p e he a ha
    have hperm := ctor_sys_perm sys []
    simp only [List.nil_append] at hperm
    obtain ⟨s, _, hs⟩ := List.mem_map.1 (hperm.mem_iff.1 he)
    rw [← hs] at ha
    cases p <;> cases ha
  | step op g w g1 w1 hr hop ih => exact ih.after_op hr.inv hop

theorem apply_store (beh : Behaviour) (op : Op) (g g1 : SystemGroup) (w w1 : World)
    (h : op.apply beh g w = some (g1, w1)) :
    g.systems.Sublist g1.systems ∨ g1.systems.Sublist g.systems := by
  have hphase : ∀ (event : CallbackList) (g0 : SystemGroup), g0.systems = g.systems →
      (phase beh event g0 w).state? = some (g1, w1) → g.systems.Sublist g1.systems := by
    intro event g0 hs hq
    obtain ⟨w2, a1, _⟩ := phase_spec beh event g0 w
    rw [a1] at hq
    simp only [Option.some.injEq, Prod.mk.injEq] at hq
    rw [← hq.1, hs]
  cases op with
  | AddSystem Sys args =>
    left
    simp only [Op.apply] at h
    cases hc : beh.ctor Sys.type args with
    | some e =>
      rw [AddSystem_ctor_threw beh Sys args g w e hc] at h
      simp only [Outcome.state?, Option.some.injEq, Prod.mk.injEq] at h
      rw [← h.1]
    | none =>
      obtain ⟨g2, w2, h1, _, _, _, ⟨r, _, hsys⟩, _⟩ := AddSystem_spec beh Sys args g w hc
      rw [h1] at h
      simp only [Option.some.injEq, Prod.mk.injEq] at h
      rw [← h.1, hsys]
      exact Multimap.sublist_insert _ _ _
  | GetSystems type =>
    simp only [Op.apply, Option.some.injEq, Prod.mk.injEq] at h
    rw [← h.1]
    exact Or.inl (List.Sublist.refl _)
  | Start => exact Or.inl (hphase g.OnStart { g with started := true } rfl h)
  | Update => exact Or.inl (hphase g.OnUpdate g rfl h)
  | Tick => exact Or.inl (hphase g.OnTick g rfl h)
  | RemoveSystems type =>
    right
    rw [(RemoveSystems_spec type g g1 w w1 h).2.2.1]
    exact List.filter_sublist _
  | RemoveSystem it =>
    right
    rw [(RemoveSystem_spec it g g1 w w1 h).2.2.1]
    exact List.eraseIdx_sublist _ _

/-- C13: in every reachable group, every node of `OnStart`, `OnUpdate` and
`OnTick` belongs to a component held in the store, and exactly one record of
the store designates that node through its handle for that list, the record
of that component; no component has two nodes in one list; and after any
operation no list holds a node of a component whose store entry the operation
removed. -/
theorem C13_callback_entries_belong_to_held_components (beh : Behaviour) (g : SystemGroup)
    (w : World) (hr : Reachable beh g w) :
    (∀ p, ∀ n ∈ g.event p, ∃ e ∈ g.systems,
      e.2.system = n.value.system ∧ e.2.handle p = some n.addr ∧
      ∀ e2 ∈ g.systems, e2.2.handle p = some n.addr → e2 = e) ∧
    (∀ p, ((g.event p).map (fun n => n.value.system)).Nodup) ∧
    (∀ (op : Op) g1 w1, op.apply beh g w = some (g1, w1) →
      ∀ e ∈ g.systems, e ∉ g1.systems → ∀ p, ∀ n ∈ g1.event p,
        n.value.system ≠ e.2.system) := by
  have hI := hr.inv
  have hL := hr.linked
  refine ⟨?_, hL.sys_nodup, ?_⟩
  · intro p n hn
    obtain ⟨e, he, h1, h2⟩ := hL.owner p n hn
    refine ⟨e, he, h1, h2, ?_⟩
    intro e2 he2 hh
    obtain ⟨n2, hn2, hn2a, hn2s⟩ := hL.target p e2 he2 n.addr hh
    have hnn : n2 = n := List.inj_on_of_nodup_map (hL.addr_nodup p) hn2 hn hn2a
    exact List.inj_on_of_nodup_map hI.nodup he2 he (by rw [← hn2s, hnn, h1])
  · intro op g1 w1 hop e he hne p n hn hsys
    have hr1 : Reachable beh g1 w1 := Reachable.step op g w g1 w1 hr hop
    obtain ⟨e1, he1, h1, _⟩ := hr1.linked.owner p n hn
    rcases apply_store beh op g g1 w w1 hop with hsub | hsub
    · exact hne (hsub.subset he)
    · have hee : e1 = e := List.inj_on_of_nodup_map hI.nodup (hsub.subset he1) he
        (by rw [h1, hsys])
      exact hne (hee ▸ he1)

/-- C13, on an instance: in the group holding `A`, `B`, `D` the node of
`OnUpdate` at address 104 belongs to `B` (pointer 102), whose record
designates it. -/
theorem C13_callback_entries_belong_to_held_components_witness :
    Reachable quiet groupABD worldABD ∧
    (⟨104, ⟨102, .overriding 5 .Update⟩⟩ : Node) ∈ groupABD.event .Update ∧
    ∃ e ∈ groupABD.systems, e.2.system = 102 ∧ e.2.handle .Update = some 104 ∧
      ∀ e2 ∈ groupABD.systems, e2.2.handle .Update = some 104 → e2 = e := by
  have hr : Reachable quiet groupABD worldABD :=
    addAll_reachable quiet [(clsA, 0), (clsB, 0), (clsD, 0)] ctor world0 (Reachable.ctor world0)
  have hn : (⟨104, ⟨102, .overriding 5 .Update⟩⟩ : Node) ∈ groupABD.event .Update := by decide
  exact ⟨hr, hn,
    (C13_callback_entries_belong_to_held_components quiet groupABD worldABD hr).1 .Update _ hn⟩

/-! ## Handles and overridden phases -/

theorem apply_not_add (beh : Behaviour) (op : Op) (g g1 : SystemGroup) (w w1 : World)
    (hop : ∀ Sys args, op ≠ Op.AddSystem Sys args)
    (h : op.apply beh g w = some (g1, w1)) :
    g1.systems.Sublist g.systems ∧ w.next ≤ w1.next := by
  have hphase : ∀ (event : CallbackList) (g0 : SystemGroup), g0.systems = g.systems →
      (phase beh event g0 w).state? = some (g1, w1) →
      g1.systems.Sublist g.systems ∧ w.next ≤ w1.next := by
    intro event g0 hs hq
    obtain ⟨w2, a1, a2⟩ := phase_spec beh event g0 w
    rw [a1] at hq
    simp only [Option.some.injEq, Prod.mk.injEq] at hq
    rw [← hq.1, ← hq.2, hs, a2]
    exact ⟨List.Sublist.refl _, Nat.le_refl _⟩
  cases op with
  | AddSystem Sys args => exact absurd rfl (hop Sys args)
  | GetSystems type =>
    simp only [Op.apply, Option.some.injEq, Prod.mk.injEq] at h
    rw [← h.1, ← h.2]
    exact ⟨List.Sublist.refl _, Nat.le_refl _⟩
  | Start => exact hphase g.OnStart { g with started := true } rfl h
  | Update => exact hphase g.OnUpdate g rfl h
  | Tick => exact hphase g.OnTick g rfl h
  | RemoveSystems type =>
    obtain ⟨a1, _, a3, _⟩ := RemoveSystems_spec type g g1 w w1 h
    rw [a1, a3]
    exact ⟨List.filter_sublist _, Nat.le_refl _⟩
  | RemoveSystem it =>
    obtain ⟨a1, _, a3, _⟩ := RemoveSystem_spec it g g1 w w1 h
    rw [a1, a3]
    exact ⟨List.eraseIdx_sublist _ _, Nat.le_refl _⟩

theorem Tracked.reachable {beh : Behaviour} {dyn : List (SystemPtr × SystemClass)}
    {g : SystemGroup} {w : World} (h : Tracked beh dyn g w) : Reachable beh g w := by
  induction h with
  | ctor w => exact Reachable.ctor w
  | add Sys args dyn g w v g1 w1 _ hret ih =>
    exact Reachable.step (.AddSystem Sys args) g w g1 w1 ih
      (by simp only [Op.apply, hret, Outcome.state?])
  | step op dyn g w g1 w1 _ _ happ ih => exact Reachable.step op g w g1 w1 ih happ

theorem Tracked.classes {beh : Behaviour} {dyn : List (SystemPtr × SystemClass)}
    {g : SystemGroup} {w : World} (h : Tracked beh dyn g w) :
    (∀ x ∈ dyn, x.1 < w.next) ∧ (dyn.map Prod.fst).Nodup ∧
    ∀ e ∈ g.systems, ∃ Sys, (e.2.system, Sys) ∈ dyn ∧ e.1 = Sys.type ∧
      ∀ p, (e.2.handle p).isSome = Sys.overrides p := by
  induction h with
  | ctor w => exact ⟨fun x hx => (by cases hx), List.nodup_nil, fun e he => (by cases he)⟩
  | add Sys args dyn g w v g1 w1 _ hret ih =>
    obtain ⟨i1, i2, i3⟩ := ih
    obtain ⟨hv, _, _, hlt, r, hr, hsys, hp⟩ := AddSystem_returned beh Sys args g g1 w w1 v hret
    subst hv
    refine ⟨?_, ?_, ?_⟩
    · intro x hx
      rcases List.mem_cons.1 hx with rfl | hx
      · exact hlt
      · exact Nat.lt_trans (i1 x hx) hlt
    · simp only [List.map_cons, List.nodup_cons]
      refine ⟨?_, i2⟩
      intro hm
      obtain ⟨x, hx, hxe⟩ := List.mem_map.1 hm
      have := i1 x hx
      rw [hxe] at this
      exact Nat.lt_irrefl _ this
    · intro e he
      rw [hsys] at he
      rcases List.mem_cons.1 ((Multimap.insert_perm _ _ _).mem_iff.1 he) with rfl | he
      · refine ⟨Sys, by rw [hr]; exact List.mem_cons_self _ _, rfl, ?_⟩
        intro p
        cases ho : Sys.overrides p with
        | true =>
          obtain ⟨a, ha, _⟩ := (hp p).1 ho
          simp only [ha, Option.isSome_some]
        | false => simp only [((hp p).2 ho).1, Option.isSome_none]
      · obtain ⟨S, hS, h1, h2⟩ := i3 e he
        exact ⟨S, List.mem_cons_of_mem _ hS, h1, h2⟩
  | step op dyn g w g1 w1 _ hop happ ih =>
    obtain ⟨i1, i2, i3⟩ := ih
    obtain ⟨hsub, hle⟩ := apply_not_add beh op g g1 w w1 hop happ
    exact ⟨fun x hx => Nat.lt_of_lt_of_le (i1 x hx) hle, i2,
      fun e he => i3 e (hsub.subset he)⟩

theorem valid_iff_handle (g : SystemGroup) (w : World) (hL : Linked g w)
    (e : TypeIndex × SystemRecord) (he : e ∈ g.systems) (p : Phase) :
    e.2.valid g p = (e.2.handle p).isSome := by
  unfold SystemRecord.valid
  cases h : e.2.handle p with
  | none => rfl
  | some a =>
    obtain ⟨n, hn, hna, _⟩ := hL.target p e he a h
    simp only [Option.isSome_some, List.any_eq_true, beq_iff_eq]
    exact ⟨n, hn, hna⟩

/-- C12 as stated fails in two kinds of reachable states. A group built by
`SystemGroup(sys...)` holds its components with value-initialised handles,
whatever they override; and when the catch-up `Start` of `B` (overrides
`Start` and `Update`) raises inside `AddSystem`, the group holds `B` with a
handle into `OnStart` but none into `OnUpdate`. -/
theorem C12_counterexample_unregistered_components :
    Reachable quiet (ctor_sys [(5, 1)]) world0 ∧
    (ctor_sys [(5, 1)]).systems = [(5, ⟨1, none, none, none⟩)] ∧
    (⟨1, none, none, none⟩ : SystemRecord).valid (ctor_sys [(5, 1)]) .Start = false ∧
    Reachable failingStart ⟨true, [⟨101, ⟨100, .overriding 5 .Start⟩⟩], [], [],
      [(5, ⟨100, some 101, none, none⟩)]⟩ ⟨102, [⟨100, .overriding 5 .Start⟩]⟩ ∧
    AddSystem failingStart clsB 0 { ctor with started := true } world0 =
      .threw 42 ⟨true, [⟨101, ⟨100, .overriding 5 .Start⟩⟩], [], [],
        [(5, ⟨100, some 101, none, none⟩)]⟩ ⟨102, [⟨100, .overriding 5 .Start⟩]⟩ ∧
    clsB.overrides .Update = true ∧
    (⟨100, some 101, none, none⟩ : SystemRecord).valid
      ⟨true, [⟨101, ⟨100, .overriding 5 .Start⟩⟩], [], [],
        [(5, ⟨100, some 101, none, none⟩)]⟩ .Update = false := by
  refine ⟨Reachable.ctor_sys _ _ (by decide) (by decide), by decide, by decide, ?_, by decide,
    by decide, by decide⟩
  exact Reachable.step (.AddSystem clsB 0) { ctor with started := true } world0 _ _
    (Reachable.step .Start ctor world0 _ _ (Reachable.ctor world0) rfl) (by decide)

/-- C12, amended: in every state reached from `SystemGroup()` by `AddSystem`
calls that return and by the other public member functions, each held
component was constructed by one `AddSystem` call, with a class `Sys` that is
the only one recorded for its address and whose type index is the key of the
entry; and for every phase `p` its record holds a valid handle into the list
of `p` if and only if `Sys` overrides `p`. -/
theorem C12_handle_valid_iff_phase_overridden (beh : Behaviour)
    (dyn : List (SystemPtr × SystemClass)) (g : SystemGroup) (w : World)
    (h : Tracked beh dyn g w) :
    ∀ e ∈ g.systems, ∃ Sys, (e.2.system, Sys) ∈ dyn ∧
      (∀ Sys2, (e.2.system, Sys2) ∈ dyn → Sys2 = Sys) ∧ e.1 = Sys.type ∧
      ∀ p, (e.2.valid g p = true ↔ Sys.overrides p = true) := by
  obtain ⟨_, i2, i3⟩ := h.classes
  have hL := h.reachable.linked
  intro e he
  obtain ⟨Sys, hS, h1, h2⟩ := i3 e he
  refine ⟨Sys, hS, ?_, h1, ?_⟩
  · intro Sys2 hS2
    have := List.inj_on_of_nodup_map i2 hS2 hS rfl
    exact congrArg Prod.snd this
  · intro p
    rw [valid_iff_handle g w hL e he p, h2 p]

/-- C12 amended, on an instance: the group holding `A`, `B`, `D`; the record
of `A` holds a valid handle into `OnUpdate` and none into `OnStart`. -/
theorem C12_handle_valid_iff_phase_overridden_witness :
    Tracked quiet [(105, clsD), (102, clsB), (100, clsA)] groupABD worldABD ∧
    ((7, ⟨100, none, some 101, none⟩) : TypeIndex × SystemRecord) ∈ groupABD.systems ∧
    ∃ Sys, (100, Sys) ∈ [(105, clsD), (102, clsB), (100, clsA)] ∧
      ∀ p, ((⟨100, none, some 101, none⟩ : SystemRecord).valid groupABD p = true ↔
        Sys.overrides p = true) := by
  have ht : Tracked quiet [(105, clsD), (102, clsB), (100, clsA)] groupABD worldABD :=
    Tracked.add clsD 0 _ _ _ 105 _ _
      (Tracked.add clsB 0 _ _ _ 102 _ _
        (Tracked.add clsA 0 _ _ _ 100 _ _ (Tracked.ctor world0)
          (by decide : AddSystem quiet clsA 0 ctor world0 = .returned 100
            (addAll quiet [(clsA, 0)] ctor world0).2.1
            (addAll quiet [(clsA, 0)] ctor world0).2.2))
        (by decide : AddSystem quiet clsB 0 (addAll quiet [(clsA, 0)] ctor world0).2.1
            (addAll quiet [(clsA, 0)] ctor world0).2.2 = .returned 102
            (addAll quiet [(clsA, 0), (clsB, 0)] ctor world0).2.1
            (addAll quiet [(clsA, 0), (clsB, 0)] ctor world0).2.2))
      (by decide : AddSystem quiet clsD 0 (addAll quiet [(clsA, 0), (clsB, 0)] ctor world0).2.1
          (addAll quiet [(clsA, 0), (clsB, 0)] ctor world0).2.2 = .returned 105 groupABD
          worldABD)
  have hm : ((7, ⟨100, none, some 101, none⟩) : TypeIndex × SystemRecord) ∈
      groupABD.systems := by decide
  obtain ⟨Sys, h1, _, _, h4⟩ :=
    C12_handle_valid_iff_phase_overridden quiet _ groupABD worldABD ht _ hm
  exact ⟨ht, hm, Sys, h1, h4⟩

/-! ## A group nested in a group -/

theorem AddSystem_quiet (beh : Behaviour) (hq : ∀ tr cb, beh.call tr cb = none)
    (Sys : SystemClass) (args : Args) (g : SystemGroup) (w : World)
    (hc : beh.ctor Sys.type args = none) :
    ∃ g1 w1, AddSystem beh Sys args g w = .returned w.next g1 w1 := by
  simp only [AddSystem, hc, GetVTable, slot_ne_base]
  rcases Sys with ⟨ty, s, u, t⟩
  cases hst : g.started <;> cases s <;> cases u <;> cases t <;>
    simp only [SystemClass.overrides, RegisterCallback, invoke, hq, Bool.and_false,
      Bool.and_true, Bool.false_and, Bool.true_and, if_true, if_false, Bool.false_eq_true] <;>
    exact ⟨_, _, rfl⟩

theorem addAll_quiet (beh : Behaviour) (hq : ∀ tr cb, beh.call tr cb = none)
    (calls : List (SystemClass × Args)) (g : SystemGroup) (w : World) :
    w.next ≤ (addAll beh calls g w).2.2.next ∧
    (∀ a ∈ (addAll beh calls g w).1, w.next ≤ a.1) ∧
    ∀ p, ((addAll beh calls g w).2.1.event p).map Node.value =
      (g.event p).map Node.value ++ invoked p (addAll beh calls g w).1 := by
  induction calls generalizing g w with
  | nil => simp [addAll, invoked]
  | cons c rest ih =>
    cases hc : beh.ctor c.1.type c.2 with
    | some e =>
      have hadd : addAll beh (c :: rest) g w = addAll beh rest g w := by
        simp [addAll, AddSystem_ctor_threw beh c.1 c.2 g w e hc]
      rw [hadd]
      exact ih g w
    | none =>
      obtain ⟨g1, w1, hret⟩ := AddSystem_quiet beh hq c.1 c.2 g w hc
      obtain ⟨_, _, _, hlt, r, _, _, hp⟩ := AddSystem_returned beh c.1 c.2 g g1 w w1 _ hret
      have hadd : addAll beh (c :: rest) g w =
          ((w.next, c.1) :: (addAll beh rest g1 w1).1, (addAll beh rest g1 w1).2) := by
        simp [addAll, hret]
      rw [hadd]
      dsimp only
      obtain ⟨h1, h2, h3⟩ := ih g1 w1
      refine ⟨Nat.le_trans (Nat.le_of_lt hlt) h1, ?_, ?_⟩
      · intro a ha
        rcases List.mem_cons.1 ha with rfl | ha
        · exact Nat.le_refl _
        · exact Nat.le_trans (Nat.le_of_lt hlt) (h2 a ha)
      · intro p
        have hstep : (g1.event p).map Node.value =
            (g.event p).map Node.value ++ invoked p [(w.next, c.1)] := by
          cases ho : c.1.overrides p with
          | true =>
            obtain ⟨a, _, _, _, ha⟩ := (hp p).1 ho
            rw [ha]; simp [invoked, ho]
          | false => rw [((hp p).2 ho).2]; simp [invoked, ho]
        rw [h3 p, hstep, invoked_cons p (w.next, c.1) (addAll beh rest g1 w1).1,
          List.append_assoc]

end common
